import Mathlib

/-!
Verification development for the libflexkube container reconciler
(pkg/container/containers.go), its Kubernetes PKI schema (the pki part of the
same source), and the controlplane builder (pkg/controlplane/controlplane.go).

The reconciler state is embedded shallowly: Go maps become association lists
(iteration order fixed to list order, one admissible order for Go's unspecified
map order), remote side effects become an explicit trace of operations, and the
fail-fast error handling of Execute becomes a latched error field threaded
through every step.  Helper types of the repository that are not part of the
provided sources (hostConfiguredContainer and the containersState primitives)
are modelled from the spec, as marked on each definition.
-/

/-- Runtime-observed status of a container: the runtime client's inspect result
carries exists and running (spec section 6). -/
structure Status where
  exists_ : Bool
  running : Bool
  deriving DecidableEq, Repr

/-- Placement descriptor of a container (spec section 3: network address and
transport credentials, structural equality).  Only its equality is observable
by the reconciler, so it is modelled as an opaque string value. -/
abbrev Host := String

/-- Container runtime spec (spec section 3: image, command, mounts, ports;
structural equality).  Only its equality is observable by the reconciler. -/
abbrev ContainerConfig := String

/-- Modelled from the spec: HostConfiguredContainer (spec section 3), one
container's placement, runtime spec, runtime status and owned config files.
The Go type lives outside the provided sources; container.Config and
container.Status are flattened into the config and status fields. -/
structure hostConfiguredContainer where
  host : Host
  config : ContainerConfig
  status : Status
  configFiles : List (String × String)
  deriving DecidableEq, Repr

/-- containersState: a mapping name to HCC, as an association list. -/
abbrev containersState := List (String × hostConfiguredContainer)

/-- Exported (user facing) state; the model keeps one representation for the
exported ContainersState and the validated containersState. -/
abbrev ContainersState := containersState

/-- Remote side effects issued by the reconciler through the host transport and
the runtime client (spec sections 4.5 and 6); each carries the container name. -/
inductive Op where
  | writeFile (n p content : String)
  | deleteFile (n p : String)
  | create (n : String)
  | start (n : String)
  | stop (n : String)
  | remove (n : String)
  deriving DecidableEq, Repr

/-- The container name an operation acts for. -/
def Op.name : Op → String
  | .writeFile n _ _ => n
  | .deleteFile n _ => n
  | .create n => n
  | .start n => n
  | .stop n => n
  | .remove n => n

/-- Errors Execute can return, by identity rather than by message text. -/
inductive EErr where
  | preconditionsNotMet
  | cantStartNonExisting
  | cantUpdateNonExisting (n : String)
  | cantUpdateRemoved (n : String)
  | missingDesired (n : String)
  deriving DecidableEq, Repr

/-- Association list lookup, mirroring a Go map read. -/
def aLookup {α : Type} : List (String × α) → String → Option α
  | [], _ => none
  | (a, b) :: t, n => if a = n then some b else aLookup t n

/-- Association list in-place update of an existing key. -/
def aUpdate {α : Type} : List (String × α) → String → α → List (String × α)
  | [], _, _ => []
  | (a, b) :: t, n, v => if a = n then (n, v) :: aUpdate t n v else (a, b) :: aUpdate t n v

/-- Association list deletion, mirroring Go delete. -/
def aErase {α : Type} : List (String × α) → String → List (String × α)
  | [], _ => []
  | (a, b) :: t, n => if a = n then aErase t n else (a, b) :: aErase t n

/-- Go map assignment m[k] = v: update the key in place when present,
append it otherwise. -/
def aInsert {α : Type} (s : List (String × α)) (n : String) (v : α) : List (String × α) :=
  if (aLookup s n).isSome then aUpdate s n v else s ++ [(n, v)]

/-- Key list of an association list. -/
def keysOf {α : Type} (s : List (String × α)) : List String := s.map (·.1)

/-- Contract of the structural diff used by the source (cmp.Diff): the
observable contract is that the diff is non-empty exactly when the values
differ (spec section 9, design notes). -/
def cmpDiff {α : Type} [DecidableEq α] (a b : α) : String :=
  if a = b then "" else "(diff)"

/-- Reconciler state: currentState and desiredState maps, the trace of remote
operations issued so far, and the latched first error (fail-fast). -/
structure St where
  current : containersState
  desired : containersState
  ops : List Op
  err : Option EErr
  deriving DecidableEq, Repr

/-- Paths of desired config files whose content is absent or differs in the
current files; the inner loop of filesToUpdate (containers.go lines 148-158). -/
def driftFiles : List (String × String) → List (String × String) → List String
  | [], _ => []
  | pc :: t, cur =>
    if aLookup cur pc.1 = some pc.2 then driftFiles t cur else pc.1 :: driftFiles t cur

/-- filesToUpdate (containers.go lines 140-161): all desired paths when there is
no current state, otherwise exactly the drifted paths. -/
def filesToUpdate (d : hostConfiguredContainer) (c : Option hostConfiguredContainer) :
    List String :=
  match c with
  | none => d.configFiles.map (·.1)
  | some c => driftFiles d.configFiles c.configFiles

/-- Modelled from the spec: hcc.Configure writes the named desired files to the
container's host (spec section 4.4 pass 2: write exactly that set). -/
def configureOps (n : String) (d : hostConfiguredContainer) (files : List String) : List Op :=
  files.map (fun p => Op.writeFile n p ((aLookup d.configFiles p).getD ""))

/-- ensureConfigured (containers.go lines 164-188): skip names absent from
desired, write the drifted files, publish desired into current when current has
no entry, and sync the current entry's configFiles to desired. -/
def ensureConfigured (st : St) (n : String) : St :=
  if st.err.isSome then st else
  match aLookup st.desired n with
  | none => st
  | some d =>
    let r := aLookup st.current n
    let st1 : St := { st with ops := st.ops ++ configureOps n d (filesToUpdate d r) }
    match r with
    | none => { st1 with current := aInsert st1.current n d }
    | some r0 =>
      { st1 with current := aInsert st1.current n { r0 with configFiles := d.configFiles } }

/-- Modelled from the spec: containersState.CreateAndStart materializes the
named desired HCC on its host (push config files, create, start) and records
the freshly observed status into the desired entry (spec section 4.5, and
section 4.4 pass 2: publish the desired HCC with its freshly assigned status). -/
def createAndStart (st : St) (n : String) : St :=
  match aLookup st.desired n with
  | none => { st with err := some (EErr.missingDesired n) }
  | some d =>
    { st with
      desired := aInsert st.desired n { d with status := { exists_ := true, running := true } }
      ops := st.ops ++ d.configFiles.map (fun pc => Op.writeFile n pc.1 pc.2)
              ++ [Op.create n, Op.start n] }

/-- ensureExists (containers.go lines 203-227): nothing to do when the current
entry exists; otherwise CreateAndStart on desired, publish desired into current
when current has no entry, and copy the fresh status into the current entry. -/
def ensureExists (st : St) (n : String) : St :=
  if st.err.isSome then st else
  let r := aLookup st.current n
  if (r.map (fun h => h.status.exists_)).getD false then st
  else
    let st1 := createAndStart st n
    if st1.err.isSome then st1 else
    match aLookup st1.desired n with
    | none => st1
    | some d =>
      match r with
      | none => { st1 with current := aInsert st1.current n d }
      | some r0 => { st1 with current := aInsert st1.current n { r0 with status := d.status } }

/-- isUpdatable (containers.go lines 230-242): a name is updatable only when it
is present in both currentState and desiredState. -/
def isUpdatable (st : St) (n : String) : Option EErr :=
  if (aLookup st.current n).isNone then some (EErr.cantUpdateNonExisting n)
  else if (aLookup st.desired n).isNone then some (EErr.cantUpdateRemoved n)
  else none

/-- diffHost (containers.go lines 247-253): guard with isUpdatable, then diff
the host fields. -/
def diffHost (st : St) (n : String) : Except EErr String :=
  match isUpdatable st n with
  | some e => .error e
  | none =>
    .ok (cmpDiff ((aLookup st.current n).map (·.host)) ((aLookup st.desired n).map (·.host)))

/-- diffContainer (containers.go lines 296-302): guard with isUpdatable, then
diff the container config fields. -/
def diffContainer (st : St) (n : String) : Except EErr String :=
  match isUpdatable st n with
  | some e => .error e
  | none =>
    .ok (cmpDiff ((aLookup st.current n).map (·.config)) ((aLookup st.desired n).map (·.config)))

/-- Modelled from the spec: containersState.RemoveContainer stops the container
when it is running, removes it from the runtime, deletes the config files it
owns and drops the map entry; idempotent when the entry is already gone
(spec section 4.5). -/
def removeContainer (st : St) (n : String) : St :=
  match aLookup st.current n with
  | none => st
  | some r =>
    { st with
      current := aErase st.current n
      ops := st.ops ++ (if r.status.running then [Op.stop n] else [])
              ++ [Op.remove n] ++ r.configFiles.map (fun pc => Op.deleteFile n pc.1) }

/-- recreate (containers.go lines 257-263): remove the current container, then
CreateAndStart it from desired. -/
def recreate (st : St) (n : String) : St :=
  createAndStart (removeContainer st n) n

/-- ensureHost (containers.go lines 270-291): diff hosts (failing when the name
is not updatable); a non-empty diff triggers recreate and publishes the desired
HCC into currentState. -/
def ensureHost (st : St) (n : String) : St :=
  if st.err.isSome then st else
  match diffHost st n with
  | .error e => { st with err := some e }
  | .ok d =>
    if d = "" then st
    else
      let st1 := recreate st n
      if st1.err.isSome then st1 else
      match aLookup st1.desired n with
      | none => st1
      | some hcc => { st1 with current := aInsert st1.current n hcc }

/-- ensureContainer (containers.go lines 307-328): diff container configs
(failing when the name is not updatable); a non-empty diff triggers recreate
and publishes the desired HCC into currentState. -/
def ensureContainer (st : St) (n : String) : St :=
  if st.err.isSome then st else
  match diffContainer st n with
  | .error e => { st with err := some e }
  | .ok d =>
    if d = "" then st
    else
      let st1 := recreate st n
      if st1.err.isSome then st1 else
      match aLookup st1.desired n with
      | none => st1
      | some hcc => { st1 with current := aInsert st1.current n hcc }

/-- One step of pass 1 of Execute (containers.go lines 344-354): delete entries
whose container no longer exists, start stopped ones.  Starting a container
marks its in-memory status running (modelled from the spec, section 4.5). -/
def pass1Step (st : St) (n : String) : St :=
  if st.err.isSome then st else
  match aLookup st.current n with
  | none => st
  | some r =>
    if r.status.exists_ = false then { st with current := aErase st.current n }
    else if r.status.running then st
    else
      { st with
        current := aInsert st.current n { r with status := { r.status with running := true } }
        ops := st.ops ++ [Op.start n] }

/-- One step of pass 2 of Execute (containers.go lines 358-366). -/
def pass2Step (st : St) (n : String) : St :=
  ensureExists (ensureConfigured st n) n

/-- One step of pass 3 of Execute (containers.go lines 370-393): ensureHost,
ensureConfigured, ensureContainer, then remove the container when it is absent
from desiredState. -/
def pass3Step (st : St) (n : String) : St :=
  let st3 := ensureContainer (ensureConfigured (ensureHost st n) n) n
  if st3.err.isSome then st3 else
  if (aLookup st3.desired n).isSome then st3
  else removeContainer st3 n

/-- The body of Execute (containers.go lines 342-395): three ordered passes,
each iterating the key set of its map as snapshotted at loop entry (the pass
bodies only delete or replace the key being visited, so this matches Go's
iteration semantics). -/
def executeBody (st : St) : St :=
  let st1 := (keysOf st.current).foldl pass1Step st
  let st2 := (keysOf st1.desired).foldl pass2Step st1
  (keysOf st2.current).foldl pass3Step st2

/-- Execute on an explicit current and desired state, with an empty trace. -/
def execute (cur des : containersState) : St :=
  executeBody { current := cur, desired := des, ops := [], err := none }

/-- Validation errors of the exported configuration. -/
inductive VErr where
  | statesNotDefined
  | noContainersDefined
  | invalidName
  deriving DecidableEq, Repr

/-- Exported Containers configuration (containers.go lines 22-28); nil Go maps
are modelled as none. -/
structure Containers where
  previousState : Option ContainersState
  desiredState : Option ContainersState
  deriving DecidableEq, Repr

/-- Modelled from the spec: ContainersState.New validates every HCC of the map
(spec section 4.2; the model keeps the name non-emptiness check, the sole
sub-validation expressible on the modelled fields) and returns the validated
state; a nil map yields an empty state. -/
def containersStateNew (s : Option ContainersState) : Except VErr containersState :=
  let l := s.getD []
  if l.any (fun p => p.1 == "") then .error VErr.invalidName else .ok l

/-- The validated engine (containers.go lines 32-39).  Go aliases the
currentState map to the previousState map on the first CheckCurrentState, so
the two state slots are modelled as references into a heap of map objects:
prevRef is the previousState pointer and curRef the currentState pointer
(none models the nil map). -/
structure containersEngine where
  heap : List containersState
  prevRef : Nat
  curRef : Option Nat
  desired : containersState
  deriving DecidableEq, Repr

/-- Containers.Validate (containers.go lines 58-78), on an optional receiver to
model the nil pointer case. -/
def Containers.Validate (c : Option Containers) : Except VErr Unit :=
  match c with
  | none => .error VErr.statesNotDefined
  | some c =>
    if c.previousState = none ∧ c.desiredState = none then .error VErr.statesNotDefined
    else
      match containersStateNew c.previousState with
      | .error e => .error e
      | .ok p =>
        match containersStateNew c.desiredState with
        | .error e => .error e
        | .ok d =>
          if p.length = 0 ∧ d.length = 0 then .error VErr.noContainersDefined
          else .ok ()

/-- Containers.New (containers.go lines 42-55): validate, then build the engine
with a nil currentState; the state constructors' errors are discarded as in the
source (validation already checked them). -/
def Containers.New (c : Option Containers) : Except VErr containersEngine :=
  match Containers.Validate c with
  | .error e => .error e
  | .ok _ =>
    let cc := c.getD { previousState := none, desiredState := none }
    .ok { heap := [((containersStateNew cc.previousState).toOption).getD []]
          prevRef := 0
          curRef := none
          desired := ((containersStateNew cc.desiredState).toOption).getD [] }

/-- Observed reality on the hosts: per-name container status and per-path file
content, consumed by state refresh. -/
structure World where
  obs : List (String × Status)
  files : List (String × String)
  deriving DecidableEq, Repr

/-- Modelled from the spec: containersState.CheckState re-probes every entry's
status on its host and reads back the content of every path of its configFiles
for drift comparison (spec sections 4.3 and 4.5). -/
def checkState (s : containersState) (w : World) : containersState :=
  s.map (fun p =>
    (p.1, { p.2 with
            status := (aLookup w.obs p.1).getD { exists_ := false, running := false }
            configFiles := p.2.configFiles.map (fun pc => (pc.1, (aLookup w.files pc.1).getD "")) }))

/-- CheckCurrentState (containers.go lines 127-136): when currentState is nil
it is aliased to the previousState map (pointer assignment), then the shared
map object is refreshed in place. -/
def checkCurrentState (e : containersEngine) (w : World) : containersEngine :=
  let r := e.curRef.getD e.prevRef
  { e with curRef := some r, heap := e.heap.set r (checkState (e.heap.getD r []) w) }

/-- Execute on the engine (containers.go lines 337-340 for the precondition):
without a current state it fails with the preconditions error and issues no
operation; otherwise the map object behind curRef is reconciled in place. -/
def executeE (e : containersEngine) : containersEngine × List Op × Option EErr :=
  match e.curRef with
  | none => (e, [], some EErr.preconditionsNotMet)
  | some r =>
    let st := execute (e.heap.getD r []) e.desired
    ({ e with heap := e.heap.set r st.current, desired := st.desired }, st.ops, st.err)

/-- The previousState map as observable through the engine's pointer. -/
def prevView (e : containersEngine) : containersState := e.heap.getD e.prevRef []

/-- A parsed YAML top-level mapping for the persisted state document; the model
starts from structurally well-formed documents whose values are state maps. -/
abbrev YamlDoc := List (String × ContainersState)

/-- The binding semantics of the non-strict sigs.k8s.io/yaml.Unmarshal call in
FromYaml (containers.go line 401): each known top-level field is bound by name
and every unknown field is ignored (the library only rejects unknown fields in
its UnmarshalStrict variant, which the source does not use). -/
def unmarshalContainers (doc : YamlDoc) : Containers :=
  { previousState := aLookup doc "previousState"
    desiredState := aLookup doc "desiredState" }

/-- FromYaml (containers.go lines 399-411): unmarshal, then Containers.New. -/
def FromYaml (doc : YamlDoc) : Except VErr containersEngine :=
  Containers.New (some (unmarshalContainers doc))

section Pki

/-- PKI certificate template and output subject fields (the pki part of the
source, restricted to the fields the embedded functions read or write). -/
structure Certificate where
  commonName : String
  organization : String
  ipAddresses : List String
  dnsNames : List String
  keyUsage : List String
  deriving DecidableEq, Repr

/-- The zero Certificate value, standing for a freshly allocated template. -/
def emptyCertificate : Certificate :=
  { commonName := "", organization := "", ipAddresses := [], dnsNames := [], keyUsage := [] }

/-- Modelled from the spec: the server key-usage set returned by serverUsage,
defined outside the provided sources; only its identity matters here. -/
def serverUsage : List String := ["key_encipherment", "digital_signature", "server_auth"]

/-- A certificate request: target, CA and the ordered inheritance chain
(certificateRequest of the pki source). -/
structure certificateRequest where
  Target : Certificate
  CA : Option Certificate
  Certificates : List Certificate
  deriving DecidableEq, Repr

/-- KubeAPIServer settings (pki source lines 463-473, restricted to the fields
the embedded request builder reads). -/
structure KubeAPIServer where
  certificate : Certificate
  externalNames : List String
  serverIPs : List String
  clusterDomain : String
  serverCertificate : Option Certificate
  deriving DecidableEq, Repr

/-- Kubernetes PKI settings (pki source lines 447-460, restricted to the fields
the embedded request builder reads; Generate replaces a nil KubeAPIServer with
the zero value before building requests, so the field is kept non-optional). -/
structure Kubernetes where
  certificate : Certificate
  ca : Option Certificate
  kubeAPIServer : KubeAPIServer
  deriving DecidableEq, Repr

/-- defaultKubeAPIServerServerCertificate (pki source lines 668-690): the fixed
SAN defaults, with the user's externalNames and serverIPs appended when a
KubeAPIServer value is given. -/
def defaultKubeAPIServerServerCertificate (k : Option KubeAPIServer) : Certificate :=
  let c : Certificate :=
    { commonName := "kube-apiserver"
      organization := ""
      ipAddresses := ["127.0.0.1"]
      dnsNames := ["localhost", "kubernetes", "kubernetes.default", "kubernetes.default.svc",
                   "kubernetes.default.svc.cluster", "kubernetes.default.svc.cluster.local"]
      keyUsage := serverUsage }
  match k with
  | none => c
  | some k =>
    { c with dnsNames := c.dnsNames ++ k.externalNames
             ipAddresses := c.ipAddresses ++ k.serverIPs }

/-- kubeAPIServerServerCR (pki source lines 509-525): the request for the
API-server serving certificate; a nil target is replaced by the zero
certificate, and the inheritance chain lists the default certificate, the
Kubernetes-level and KubeAPIServer-level templates, the API-server SAN
defaults, and the target last. -/
def kubeAPIServerServerCR (k : Kubernetes) (defaultCertificate : Certificate) :
    certificateRequest :=
  let sc := (k.kubeAPIServer.serverCertificate).getD emptyCertificate
  { Target := sc
    CA := k.ca
    Certificates := [defaultCertificate, k.certificate, k.kubeAPIServer.certificate,
                     defaultKubeAPIServerServerCertificate (some k.kubeAPIServer), sc] }

end Pki

section ControlplaneModel

/-- Controlplane configuration (controlplane.go lines 32-47).  The component
configurations and their templating are out of the modelled scope, so each
component is modelled from the spec by the HostConfiguredContainer its builder
produces, together with one flag recording whether the per-component
validations of Controlplane.Validate succeed. -/
structure Controlplane where
  state : Option ContainersState
  componentsValid : Bool
  kasHcc : hostConfiguredContainer
  kcmHcc : hostConfiguredContainer
  ksHcc : hostConfiguredContainer
  deriving DecidableEq, Repr

/-- Modelled from the spec: Controlplane.Validate (controlplane.go lines
194-232) validates the three component configurations and their container
builders; the outcome is the recorded flag. -/
def Controlplane.Validate (c : Controlplane) : Except VErr Unit :=
  if c.componentsValid then .ok () else .error VErr.invalidName

/-- The desired state Controlplane.New assembles (controlplane.go lines
172-176): exactly the three static control plane members. -/
def controlplaneDesiredState (c : Controlplane) : ContainersState :=
  [("kube-apiserver", c.kasHcc), ("kube-controller-manager", c.kcmHcc),
   ("kube-scheduler", c.ksHcc)]

/-- Controlplane.New (controlplane.go lines 139-183): validate, then build the
containers engine from the persisted state as previousState and the three
components as desiredState; the inner Containers.New error is discarded as in
the source, leaving a missing engine when it fails. -/
def Controlplane.New (c : Controlplane) : Except VErr (Option containersEngine) :=
  match Controlplane.Validate c with
  | .error e => .error e
  | .ok _ =>
    .ok ((Containers.New (some
      { previousState := some (c.state.getD [])
        desiredState := some (controlplaneDesiredState c) })).toOption)

end ControlplaneModel

/-! ### Association list lemmas -/

theorem keysOf_nil {α : Type} : keysOf ([] : List (String × α)) = [] := rfl

theorem keysOf_cons {α : Type} (p : String × α) (t : List (String × α)) :
    keysOf (p :: t) = p.1 :: keysOf t := rfl

theorem keysOf_append {α : Type} (s t : List (String × α)) :
    keysOf (s ++ t) = keysOf s ++ keysOf t := by
  simp [keysOf]

theorem aLookup_eq_none_iff {α : Type} (s : List (String × α)) (n : String) :
    aLookup s n = none ↔ n ∉ keysOf s := by
  induction s with
  | nil => simp [aLookup, keysOf]
  | cons p t ih =>
    obtain ⟨a, b⟩ := p
    by_cases hp : a = n
    · simp [aLookup, hp, keysOf_cons]
    · simp [aLookup, hp, keysOf_cons, ih, Ne.symm hp]

theorem aLookup_isSome_iff {α : Type} (s : List (String × α)) (n : String) :
    (aLookup s n).isSome ↔ n ∈ keysOf s := by
  induction s with
  | nil => simp [aLookup, keysOf]
  | cons p t ih =>
    obtain ⟨a, b⟩ := p
    by_cases hp : a = n
    · simp [aLookup, hp, keysOf_cons]
    · simp [aLookup, hp, keysOf_cons, ih, Ne.symm hp]

theorem mem_keysOf_of_aLookup {α : Type} {s : List (String × α)} {n : String} {v : α}
    (h : aLookup s n = some v) : n ∈ keysOf s :=
  (aLookup_isSome_iff s n).1 (by simp [h])

theorem aLookup_mem {α : Type} {s : List (String × α)} {n : String} {v : α}
    (h : aLookup s n = some v) : (n, v) ∈ s := by
  induction s with
  | nil => simp [aLookup] at h
  | cons p t ih =>
    obtain ⟨a, b⟩ := p
    by_cases hp : a = n
    · simp [aLookup, hp] at h
      subst hp
      subst h
      exact List.mem_cons_self _ _
    · simp [aLookup, hp] at h
      exact List.mem_cons_of_mem _ (ih h)

theorem aLookup_append_of_none {α : Type} {s : List (String × α)} {n : String}
    (t : List (String × α)) (h : aLookup s n = none) :
    aLookup (s ++ t) n = aLookup t n := by
  induction s with
  | nil => simp
  | cons p s ih =>
    obtain ⟨a, b⟩ := p
    by_cases hp : a = n
    · simp [aLookup, hp] at h
    · simp [aLookup, hp] at h ⊢
      exact ih h

theorem aLookup_append_of_some {α : Type} {s : List (String × α)} {n : String} {v : α}
    (t : List (String × α)) (h : aLookup s n = some v) :
    aLookup (s ++ t) n = some v := by
  induction s with
  | nil => simp [aLookup] at h
  | cons p s ih =>
    obtain ⟨a, b⟩ := p
    by_cases hp : a = n
    · simp [aLookup, hp] at h ⊢
      exact h
    · simp [aLookup, hp] at h ⊢
      exact ih h

theorem aLookup_aUpdate_ne {α : Type} (s : List (String × α)) {m n : String} (v : α)
    (h : m ≠ n) : aLookup (aUpdate s m v) n = aLookup s n := by
  induction s with
  | nil => rfl
  | cons p t ih =>
    obtain ⟨a, b⟩ := p
    by_cases hp : a = m
    · subst hp
      simp [aUpdate, aLookup, h, ih]
    · by_cases han : a = n <;> simp [aUpdate, hp, aLookup, han, ih, Ne.symm h]

theorem aLookup_aUpdate_self {α : Type} (s : List (String × α)) (n : String) (v : α)
    (h : (aLookup s n).isSome) : aLookup (aUpdate s n v) n = some v := by
  induction s with
  | nil => simp [aLookup] at h
  | cons p t ih =>
    obtain ⟨a, b⟩ := p
    by_cases hp : a = n
    · simp [aUpdate, hp, aLookup]
    · simp [aLookup, hp] at h
      simp [aUpdate, hp, aLookup, ih h]

theorem aUpdate_of_none {α : Type} (s : List (String × α)) (n : String) (v : α)
    (h : aLookup s n = none) : aUpdate s n v = s := by
  induction s with
  | nil => rfl
  | cons p t ih =>
    obtain ⟨a, b⟩ := p
    by_cases hp : a = n
    · simp [aLookup, hp] at h
    · simp [aLookup, hp] at h
      simp [aUpdate, hp, ih h]

theorem aUpdate_self {α : Type} {s : List (String × α)} {n : String} {v : α}
    (hnd : (keysOf s).Nodup) (h : aLookup s n = some v) : aUpdate s n v = s := by
  induction s with
  | nil => rfl
  | cons p t ih =>
    obtain ⟨a, b⟩ := p
    rw [keysOf_cons] at hnd
    by_cases hp : a = n
    · simp [aLookup, hp] at h
      have ht : aLookup t n = none := by
        rw [aLookup_eq_none_iff]
        rw [← hp] at *
        exact (List.nodup_cons.1 hnd).1
      subst hp
      subst h
      simp [aUpdate, aUpdate_of_none _ _ _ ht]
    · simp [aLookup, hp] at h
      simp [aUpdate, hp, ih (List.nodup_cons.1 hnd).2 h]

theorem keysOf_aUpdate {α : Type} (s : List (String × α)) (n : String) (v : α) :
    keysOf (aUpdate s n v) = keysOf s := by
  induction s with
  | nil => rfl
  | cons p t ih =>
    obtain ⟨a, b⟩ := p
    by_cases hp : a = n <;> simp [aUpdate, hp, keysOf_cons, ih]

theorem aLookup_aErase_self {α : Type} (s : List (String × α)) (n : String) :
    aLookup (aErase s n) n = none := by
  induction s with
  | nil => rfl
  | cons p t ih =>
    obtain ⟨a, b⟩ := p
    by_cases hp : a = n <;> simp [aErase, hp, aLookup, ih]

theorem aLookup_aErase_ne {α : Type} (s : List (String × α)) {m n : String}
    (h : m ≠ n) : aLookup (aErase s m) n = aLookup s n := by
  induction s with
  | nil => rfl
  | cons p t ih =>
    obtain ⟨a, b⟩ := p
    by_cases hp : a = m
    · subst hp
      simp [aErase, aLookup, h, ih]
    · by_cases han : a = n <;> simp [aErase, hp, aLookup, han, ih, Ne.symm h]

theorem aErase_sublist {α : Type} (s : List (String × α)) (n : String) :
    (aErase s n).Sublist s := by
  induction s with
  | nil => simp [aErase]
  | cons p t ih =>
    obtain ⟨a, b⟩ := p
    by_cases hp : a = n
    · simp only [aErase, hp, if_true]
      exact ih.cons _
    · simp only [aErase, hp, if_false]
      exact ih.cons₂ _

theorem keysOf_aErase_sublist {α : Type} (s : List (String × α)) (n : String) :
    (keysOf (aErase s n)).Sublist (keysOf s) := by
  unfold keysOf
  exact (aErase_sublist s n).map _

theorem aErase_of_none {α : Type} (s : List (String × α)) (n : String)
    (h : aLookup s n = none) : aErase s n = s := by
  induction s with
  | nil => rfl
  | cons p t ih =>
    obtain ⟨a, b⟩ := p
    by_cases hp : a = n
    · simp [aLookup, hp] at h
    · simp [aLookup, hp] at h
      simp [aErase, hp, ih h]

theorem aLookup_aInsert_self {α : Type} (s : List (String × α)) (n : String) (v : α) :
    aLookup (aInsert s n v) n = some v := by
  unfold aInsert
  cases hh : aLookup s n with
  | some w => simp [hh, aLookup_aUpdate_self s n v (by simp [hh])]
  | none => simp [hh, aLookup_append_of_none _ hh, aLookup]

theorem aLookup_aInsert_ne {α : Type} (s : List (String × α)) {m n : String} (v : α)
    (h : m ≠ n) : aLookup (aInsert s m v) n = aLookup s n := by
  unfold aInsert
  cases hh : aLookup s m with
  | some w => simp [hh, aLookup_aUpdate_ne s v h]
  | none =>
    simp only [hh, Option.isSome_none, Bool.false_eq_true, if_false]
    cases hl : aLookup s n with
    | none => simp [aLookup_append_of_none _ hl, aLookup, h]
    | some v2 => simp [aLookup_append_of_some _ hl]

theorem keysOf_aInsert_isSome {α : Type} (s : List (String × α)) (n : String) (v : α)
    (h : (aLookup s n).isSome) : keysOf (aInsert s n v) = keysOf s := by
  simp [aInsert, h, keysOf_aUpdate]

theorem keysOf_aInsert_none {α : Type} (s : List (String × α)) (n : String) (v : α)
    (h : aLookup s n = none) : keysOf (aInsert s n v) = keysOf s ++ [n] := by
  simp [aInsert, h, keysOf_append, keysOf]

theorem nodup_keysOf_aInsert {α : Type} (s : List (String × α)) (n : String) (v : α)
    (h : (keysOf s).Nodup) : (keysOf (aInsert s n v)).Nodup := by
  cases hl : aLookup s n with
  | none =>
    rw [keysOf_aInsert_none s n v hl]
    have hn : n ∉ keysOf s := (aLookup_eq_none_iff s n).1 hl
    simp [List.nodup_append, h, hn]
  | some w =>
    rw [keysOf_aInsert_isSome s n v (by simp [hl])]
    exact h

theorem mem_aUpdate {α : Type} {s : List (String × α)} {n : String} {v : α} {p : String × α}
    (h : p ∈ aUpdate s n v) : p = (n, v) ∨ p ∈ s := by
  induction s with
  | nil => simp [aUpdate] at h
  | cons q t ih =>
    obtain ⟨a, b⟩ := q
    by_cases hq : a = n
    · simp only [aUpdate, hq, if_true, List.mem_cons] at h
      rcases h with h | h
      · exact Or.inl h
      · rcases ih h with h | h
        · exact Or.inl h
        · exact Or.inr (List.mem_cons_of_mem _ h)
    · simp only [aUpdate, hq, if_false, List.mem_cons] at h
      rcases h with h | h
      · exact Or.inr (by simp [h])
      · rcases ih h with h | h
        · exact Or.inl h
        · exact Or.inr (List.mem_cons_of_mem _ h)

theorem mem_aErase {α : Type} {s : List (String × α)} {n : String} {p : String × α}
    (h : p ∈ aErase s n) : p ∈ s :=
  (aErase_sublist s n).mem h

theorem mem_aInsert {α : Type} {s : List (String × α)} {n : String} {v : α} {p : String × α}
    (h : p ∈ aInsert s n v) : p = (n, v) ∨ p ∈ s := by
  unfold aInsert at h
  cases hh : aLookup s n with
  | some w =>
    rw [hh] at h
    simp only [Option.isSome_some, if_true] at h
    exact mem_aUpdate h
  | none =>
    rw [hh] at h
    simp only [Option.isSome_none, Bool.false_eq_true, if_false, List.mem_append,
      List.mem_singleton] at h
    rcases h with h | h
    · exact Or.inr h
    · exact Or.inl h

/-! ### Well-formed states and drift computation -/

/-- Well-formed state map: unique names, and unique paths within each entry's
configFiles, as guaranteed by Go map representation. -/
def WfS (s : containersState) : Prop :=
  (keysOf s).Nodup ∧ ∀ p ∈ s, ((p.2.configFiles.map (·.1)).Nodup)

instance (s : containersState) : Decidable (WfS s) := by
  unfold WfS
  infer_instance

theorem WfS_nodup {s : containersState} (h : WfS s) : (keysOf s).Nodup := h.1

theorem WfS_cf {s : containersState} (h : WfS s) {n : String} {v : hostConfiguredContainer}
    (hv : aLookup s n = some v) : (v.configFiles.map (·.1)).Nodup :=
  h.2 (n, v) (aLookup_mem hv)

theorem WfS_aErase {s : containersState} (h : WfS s) (n : String) : WfS (aErase s n) :=
  ⟨(keysOf_aErase_sublist s n).nodup h.1, fun p hp => h.2 p (mem_aErase hp)⟩

theorem WfS_aUpdate {s : containersState} (h : WfS s) (n : String)
    {v : hostConfiguredContainer} (hv : (v.configFiles.map (·.1)).Nodup) :
    WfS (aUpdate s n v) := by
  refine ⟨by rw [keysOf_aUpdate]; exact h.1, fun p hp => ?_⟩
  rcases mem_aUpdate hp with hp | hp
  · rw [hp]
    exact hv
  · exact h.2 p hp

theorem WfS_aInsert {s : containersState} (h : WfS s) (n : String)
    {v : hostConfiguredContainer} (hv : (v.configFiles.map (·.1)).Nodup) :
    WfS (aInsert s n v) := by
  refine ⟨nodup_keysOf_aInsert s n v h.1, fun p hp => ?_⟩
  rcases mem_aInsert hp with hp | hp
  · rw [hp]
    exact hv
  · exact h.2 p hp

theorem aLookup_self_of_nodup {cf : List (String × String)} (hnd : (cf.map (·.1)).Nodup)
    {pc : String × String} (h : pc ∈ cf) : aLookup cf pc.1 = some pc.2 := by
  induction cf with
  | nil => simp at h
  | cons q t ih =>
    obtain ⟨a, b⟩ := q
    rw [List.map_cons] at hnd
    have h1 := (List.nodup_cons.1 hnd).1
    have h2 := (List.nodup_cons.1 hnd).2
    rcases List.mem_cons.1 h with h | h
    · rw [h]
      simp [aLookup]
    · have ha : a ≠ pc.1 := by
        intro hc
        have hm : pc.1 ∈ List.map (fun x => x.1) t := List.mem_map_of_mem (fun x => x.1) h
        rw [← hc] at hm
        exact h1 hm
      simp [aLookup, ha]
      exact ih h2 h

theorem driftFiles_eq_nil {cf cur : List (String × String)}
    (h : ∀ pc ∈ cf, aLookup cur pc.1 = some pc.2) : driftFiles cf cur = [] := by
  induction cf with
  | nil => rfl
  | cons pc t ih =>
    simp only [driftFiles, h pc (by simp), if_true]
    exact ih (fun q hq => h q (by simp [hq]))

theorem driftFiles_self {cf : List (String × String)} (hnd : (cf.map (·.1)).Nodup) :
    driftFiles cf cf = [] :=
  driftFiles_eq_nil (fun pc h => aLookup_self_of_nodup hnd h)

/-! ### Latching and error shape of the pass steps -/

theorem ensureConfigured_latch {st : St} (n : String) (h : st.err.isSome) :
    ensureConfigured st n = st := by
  simp [ensureConfigured, h]

theorem ensureExists_latch {st : St} (n : String) (h : st.err.isSome) :
    ensureExists st n = st := by
  simp [ensureExists, h]

theorem ensureHost_latch {st : St} (n : String) (h : st.err.isSome) :
    ensureHost st n = st := by
  simp [ensureHost, h]

theorem ensureContainer_latch {st : St} (n : String) (h : st.err.isSome) :
    ensureContainer st n = st := by
  simp [ensureContainer, h]

theorem pass1Step_latch {st : St} (n : String) (h : st.err.isSome) :
    pass1Step st n = st := by
  simp [pass1Step, h]

theorem pass2Step_latch {st : St} (n : String) (h : st.err.isSome) :
    pass2Step st n = st := by
  simp [pass2Step, ensureConfigured_latch n h, ensureExists_latch n h]

theorem pass3Step_latch {st : St} (n : String) (h : st.err.isSome) :
    pass3Step st n = st := by
  simp [pass3Step, ensureHost_latch n h, ensureConfigured_latch n h,
    ensureContainer_latch n h, h]

theorem foldl_err_none {f : St → String → St}
    (hl : ∀ st m, st.err.isSome → f st m = st) {L : List String} {st : St}
    (h : (L.foldl f st).err = none) : st.err = none := by
  induction L generalizing st with
  | nil => simpa using h
  | cons m t ih =>
    simp only [List.foldl_cons] at h
    have h2 := ih h
    by_cases hs : st.err.isSome
    · rw [hl st m hs] at h2
      exact h2
    · exact Option.not_isSome_iff_eq_none.1 hs

theorem ensureConfigured_err (st : St) (n : String) :
    (ensureConfigured st n).err = st.err := by
  by_cases h : st.err.isSome
  · rw [ensureConfigured_latch n h]
  · simp only [ensureConfigured, h, if_false]
    cases hd : aLookup st.desired n with
    | none => rfl
    | some d =>
      cases hr : aLookup st.current n <;> simp [hd, hr]

theorem createAndStart_err_of_some {st : St} {n : String} {d : hostConfiguredContainer}
    (hd : aLookup st.desired n = some d) : (createAndStart st n).err = st.err := by
  simp [createAndStart, hd]

theorem pass1Step_err (st : St) (n : String) :
    (pass1Step st n).err = st.err := by
  by_cases h : st.err.isSome
  · rw [pass1Step_latch n h]
  · simp only [pass1Step, h, if_false]
    cases hr : aLookup st.current n with
    | none => rfl
    | some r =>
      by_cases he : r.status.exists_ = false
      · simp [he]
      · by_cases hrun : r.status.running = true <;> simp [he, hrun]

theorem removeContainer_err (st : St) (n : String) :
    (removeContainer st n).err = st.err := by
  unfold removeContainer
  cases hr : aLookup st.current n <;> rfl

/-! ### Frame lemmas: a step for name m does not touch name n -/

theorem ensureConfigured_desired (st : St) (m : String) :
    (ensureConfigured st m).desired = st.desired := by
  by_cases he : st.err.isSome
  · rw [ensureConfigured_latch m he]
  · simp only [ensureConfigured, he, Bool.false_eq_true, if_false]
    cases hd : aLookup st.desired m with
    | none => rfl
    | some d => cases hr : aLookup st.current m <;> simp [hd, hr]

theorem ensureConfigured_current_ne {st : St} {m n : String} (h : m ≠ n) :
    aLookup (ensureConfigured st m).current n = aLookup st.current n := by
  by_cases he : st.err.isSome
  · rw [ensureConfigured_latch m he]
  · simp only [ensureConfigured, he, Bool.false_eq_true, if_false]
    cases hd : aLookup st.desired m with
    | none => rfl
    | some d =>
      cases hr : aLookup st.current m <;> simp [hd, hr, aLookup_aInsert_ne, h]

theorem ensureConfigured_opsExt (st : St) (m : String) :
    ∃ ex, (ensureConfigured st m).ops = st.ops ++ ex ∧ ∀ o ∈ ex, o.name = m := by
  by_cases he : st.err.isSome
  · rw [ensureConfigured_latch m he]
    exact ⟨[], by simp⟩
  · simp only [ensureConfigured, he, Bool.false_eq_true, if_false]
    cases hd : aLookup st.desired m with
    | none => exact ⟨[], by simp⟩
    | some d =>
      cases hr : aLookup st.current m <;>
        exact ⟨configureOps m d (filesToUpdate d (aLookup st.current m)), by
          constructor
          · simp [hd, hr]
          · intro o ho
            simp only [configureOps, List.mem_map] at ho
            obtain ⟨p, _, hp⟩ := ho
            rw [← hp]
            rfl⟩

theorem createAndStart_current (st : St) (m : String) :
    (createAndStart st m).current = st.current := by
  unfold createAndStart
  cases hd : aLookup st.desired m <;> rfl

theorem createAndStart_desired_ne {st : St} {m n : String} (h : m ≠ n) :
    aLookup (createAndStart st m).desired n = aLookup st.desired n := by
  unfold createAndStart
  cases hd : aLookup st.desired m with
  | none => rfl
  | some d => simp [aLookup_aInsert_ne, h]

theorem createAndStart_keysOf_desired (st : St) (m : String) :
    keysOf (createAndStart st m).desired = keysOf st.desired := by
  unfold createAndStart
  cases hd : aLookup st.desired m with
  | none => rfl
  | some d => exact keysOf_aInsert_isSome st.desired m _ (by simp [hd])

theorem createAndStart_opsExt (st : St) (m : String) :
    ∃ ex, (createAndStart st m).ops = st.ops ++ ex ∧ ∀ o ∈ ex, o.name = m := by
  unfold createAndStart
  cases hd : aLookup st.desired m with
  | none => exact ⟨[], by simp⟩
  | some d =>
    refine ⟨d.configFiles.map (fun pc => Op.writeFile m pc.1 pc.2) ++ [Op.create m, Op.start m],
      by simp, ?_⟩
    intro o ho
    simp only [List.mem_append, List.mem_map, List.mem_cons] at ho
    rcases ho with ⟨p, _, hp⟩ | ho
    · rw [← hp]
      rfl
    · rcases ho with h | h | h
      · rw [h]; rfl
      · rw [h]; rfl
      · simp at h

theorem ensureExists_desired_ne {st : St} {m n : String} (h : m ≠ n) :
    aLookup (ensureExists st m).desired n = aLookup st.desired n := by
  by_cases he : st.err.isSome
  · rw [ensureExists_latch m he]
  · simp only [ensureExists, he, Bool.false_eq_true, if_false]
    by_cases hx : ((aLookup st.current m).map (fun h => h.status.exists_)).getD false
    · simp [hx]
    · simp only [hx, Bool.false_eq_true, if_false]
      by_cases he1 : (createAndStart st m).err.isSome
      · simp [he1, createAndStart_desired_ne h]
      · simp only [he1, Bool.false_eq_true, if_false]
        cases hd1 : aLookup (createAndStart st m).desired m with
        | none => simp [createAndStart_desired_ne h]
        | some d =>
          cases hr : aLookup st.current m <;> simp [hd1, hr, createAndStart_desired_ne h]

theorem ensureExists_keysOf_desired (st : St) (m : String) :
    keysOf (ensureExists st m).desired = keysOf st.desired := by
  by_cases he : st.err.isSome
  · rw [ensureExists_latch m he]
  · simp only [ensureExists, he, Bool.false_eq_true, if_false]
    by_cases hx : ((aLookup st.current m).map (fun h => h.status.exists_)).getD false
    · simp [hx]
    · simp only [hx, Bool.false_eq_true, if_false]
      by_cases he1 : (createAndStart st m).err.isSome
      · simp [he1, createAndStart_keysOf_desired]
      · simp only [he1, Bool.false_eq_true, if_false]
        cases hd1 : aLookup (createAndStart st m).desired m with
        | none => simp [createAndStart_keysOf_desired]
        | some d =>
          cases hr : aLookup st.current m <;> simp [hd1, hr, createAndStart_keysOf_desired]

theorem ensureExists_current_ne {st : St} {m n : String} (h : m ≠ n) :
    aLookup (ensureExists st m).current n = aLookup st.current n := by
  by_cases he : st.err.isSome
  · rw [ensureExists_latch m he]
  · simp only [ensureExists, he, Bool.false_eq_true, if_false]
    by_cases hx : ((aLookup st.current m).map (fun h => h.status.exists_)).getD false
    · simp [hx]
    · simp only [hx, Bool.false_eq_true, if_false]
      by_cases he1 : (createAndStart st m).err.isSome
      · simp [he1, createAndStart_current]
      · simp only [he1, Bool.false_eq_true, if_false]
        cases hd1 : aLookup (createAndStart st m).desired m with
        | none => simp [createAndStart_current]
        | some d =>
          cases hr : aLookup st.current m <;>
            simp [hd1, hr, createAndStart_current, aLookup_aInsert_ne, h]

theorem ensureExists_opsExt (st : St) (m : String) :
    ∃ ex, (ensureExists st m).ops = st.ops ++ ex ∧ ∀ o ∈ ex, o.name = m := by
  by_cases he : st.err.isSome
  · rw [ensureExists_latch m he]
    exact ⟨[], by simp⟩
  · simp only [ensureExists, he, Bool.false_eq_true, if_false]
    by_cases hx : ((aLookup st.current m).map (fun h => h.status.exists_)).getD false
    · simp only [hx, if_true]
      exact ⟨[], by simp⟩
    · simp only [hx, Bool.false_eq_true, if_false]
      obtain ⟨ex, hex, hname⟩ := createAndStart_opsExt st m
      by_cases he1 : (createAndStart st m).err.isSome
      · simp only [he1, if_true]
        exact ⟨ex, hex, hname⟩
      · simp only [he1, Bool.false_eq_true, if_false]
        cases hd1 : aLookup (createAndStart st m).desired m with
        | none => exact ⟨ex, hex, hname⟩
        | some d =>
          cases hr : aLookup st.current m <;> simp [hd1, hr] <;> exact ⟨ex, hex, hname⟩

theorem removeContainer_desired (st : St) (m : String) :
    (removeContainer st m).desired = st.desired := by
  unfold removeContainer
  cases hr : aLookup st.current m <;> rfl

theorem removeContainer_current_ne {st : St} {m n : String} (h : m ≠ n) :
    aLookup (removeContainer st m).current n = aLookup st.current n := by
  unfold removeContainer
  cases hr : aLookup st.current m with
  | none => rfl
  | some r => simp [aLookup_aErase_ne, h]

theorem removeContainer_opsExt (st : St) (m : String) :
    ∃ ex, (removeContainer st m).ops = st.ops ++ ex ∧ ∀ o ∈ ex, o.name = m := by
  unfold removeContainer
  cases hr : aLookup st.current m with
  | none => exact ⟨[], by simp⟩
  | some r =>
    refine ⟨(if r.status.running then [Op.stop m] else []) ++ [Op.remove m]
        ++ r.configFiles.map (fun pc => Op.deleteFile m pc.1), by simp, ?_⟩
    intro o ho
    simp only [List.mem_append, List.mem_map, List.mem_cons] at ho
    rcases ho with (ho | ho) | ⟨p, _, hp⟩
    · by_cases hrun : r.status.running = true <;> simp [hrun] at ho
      rw [ho]
      rfl
    · rcases ho with h | h
      · rw [h]; rfl
      · simp at h
    · rw [← hp]
      rfl

theorem opsExt_trans {st1 st2 st3 : St} {m : String}
    (h1 : ∃ ex, st2.ops = st1.ops ++ ex ∧ ∀ o ∈ ex, o.name = m)
    (h2 : ∃ ex, st3.ops = st2.ops ++ ex ∧ ∀ o ∈ ex, o.name = m) :
    ∃ ex, st3.ops = st1.ops ++ ex ∧ ∀ o ∈ ex, o.name = m := by
  obtain ⟨e1, he1, hn1⟩ := h1
  obtain ⟨e2, he2, hn2⟩ := h2
  refine ⟨e1 ++ e2, ?_, ?_⟩
  · rw [he2, he1, List.append_assoc]
  · intro o ho
    rcases List.mem_append.1 ho with h | h
    · exact hn1 o h
    · exact hn2 o h

theorem recreate_current_ne {st : St} {m n : String} (h : m ≠ n) :
    aLookup (recreate st m).current n = aLookup st.current n := by
  unfold recreate
  rw [createAndStart_current, removeContainer_current_ne h]

theorem recreate_desired_ne {st : St} {m n : String} (h : m ≠ n) :
    aLookup (recreate st m).desired n = aLookup st.desired n := by
  unfold recreate
  rw [createAndStart_desired_ne h, removeContainer_desired]

theorem recreate_keysOf_desired (st : St) (m : String) :
    keysOf (recreate st m).desired = keysOf st.desired := by
  unfold recreate
  rw [createAndStart_keysOf_desired, removeContainer_desired]

theorem recreate_opsExt (st : St) (m : String) :
    ∃ ex, (recreate st m).ops = st.ops ++ ex ∧ ∀ o ∈ ex, o.name = m :=
  opsExt_trans (removeContainer_opsExt st m) (createAndStart_opsExt (removeContainer st m) m)

theorem ensureHost_desired_ne {st : St} {m n : String} (h : m ≠ n) :
    aLookup (ensureHost st m).desired n = aLookup st.desired n := by
  by_cases he : st.err.isSome
  · rw [ensureHost_latch m he]
  · simp only [ensureHost, he, Bool.false_eq_true, if_false]
    cases hdf : diffHost st m with
    | error e => rfl
    | ok df =>
      by_cases hdd : df = ""
      · simp [hdd]
      · simp only [hdd, if_false]
        by_cases he1 : (recreate st m).err.isSome
        · simp [he1, recreate_desired_ne h]
        · simp only [he1, Bool.false_eq_true, if_false]
          cases hd1 : aLookup (recreate st m).desired m with
          | none => simp [recreate_desired_ne h]
          | some hcc => simp [recreate_desired_ne h]

theorem ensureHost_keysOf_desired (st : St) (m : String) :
    keysOf (ensureHost st m).desired = keysOf st.desired := by
  by_cases he : st.err.isSome
  · rw [ensureHost_latch m he]
  · simp only [ensureHost, he, Bool.false_eq_true, if_false]
    cases hdf : diffHost st m with
    | error e => rfl
    | ok df =>
      by_cases hdd : df = ""
      · simp [hdd]
      · simp only [hdd, if_false]
        by_cases he1 : (recreate st m).err.isSome
        · simp [he1, recreate_keysOf_desired]
        · simp only [he1, Bool.false_eq_true, if_false]
          cases hd1 : aLookup (recreate st m).desired m with
          | none => simp [recreate_keysOf_desired]
          | some hcc => simp [recreate_keysOf_desired]

theorem ensureHost_current_ne {st : St} {m n : String} (h : m ≠ n) :
    aLookup (ensureHost st m).current n = aLookup st.current n := by
  by_cases he : st.err.isSome
  · rw [ensureHost_latch m he]
  · simp only [ensureHost, he, Bool.false_eq_true, if_false]
    cases hdf : diffHost st m with
    | error e => rfl
    | ok df =>
      by_cases hdd : df = ""
      · simp [hdd]
      · simp only [hdd, if_false]
        by_cases he1 : (recreate st m).err.isSome
        · simp [he1, recreate_current_ne h]
        · simp only [he1, Bool.false_eq_true, if_false]
          cases hd1 : aLookup (recreate st m).desired m with
          | none => simp [recreate_current_ne h]
          | some hcc => simp [aLookup_aInsert_ne, h, recreate_current_ne h]

theorem ensureHost_opsExt (st : St) (m : String) :
    ∃ ex, (ensureHost st m).ops = st.ops ++ ex ∧ ∀ o ∈ ex, o.name = m := by
  by_cases he : st.err.isSome
  · rw [ensureHost_latch m he]
    exact ⟨[], by simp⟩
  · simp only [ensureHost, he, Bool.false_eq_true, if_false]
    cases hdf : diffHost st m with
    | error e => exact ⟨[], by simp⟩
    | ok df =>
      by_cases hdd : df = ""
      · simp only [hdd, if_true]
        exact ⟨[], by simp⟩
      · simp only [hdd, if_false]
        obtain ⟨ex, hex, hname⟩ := recreate_opsExt st m
        by_cases he1 : (recreate st m).err.isSome
        · simp only [he1, if_true]
          exact ⟨ex, hex, hname⟩
        · simp only [he1, Bool.false_eq_true, if_false]
          cases hd1 : aLookup (recreate st m).desired m with
          | none => exact ⟨ex, hex, hname⟩
          | some hcc => exact ⟨ex, hex, hname⟩

theorem ensureContainer_desired_ne {st : St} {m n : String} (h : m ≠ n) :
    aLookup (ensureContainer st m).desired n = aLookup st.desired n := by
  by_cases he : st.err.isSome
  · rw [ensureContainer_latch m he]
  · simp only [ensureContainer, he, Bool.false_eq_true, if_false]
    cases hdf : diffContainer st m with
    | error e => rfl
    | ok df =>
      by_cases hdd : df = ""
      · simp [hdd]
      · simp only [hdd, if_false]
        by_cases he1 : (recreate st m).err.isSome
        · simp [he1, recreate_desired_ne h]
        · simp only [he1, Bool.false_eq_true, if_false]
          cases hd1 : aLookup (recreate st m).desired m with
          | none => simp [recreate_desired_ne h]
          | some hcc => simp [recreate_desired_ne h]

theorem ensureContainer_keysOf_desired (st : St) (m : String) :
    keysOf (ensureContainer st m).desired = keysOf st.desired := by
  by_cases he : st.err.isSome
  · rw [ensureContainer_latch m he]
  · simp only [ensureContainer, he, Bool.false_eq_true, if_false]
    cases hdf : diffContainer st m with
    | error e => rfl
    | ok df =>
      by_cases hdd : df = ""
      · simp [hdd]
      · simp only [hdd, if_false]
        by_cases he1 : (recreate st m).err.isSome
        · simp [he1, recreate_keysOf_desired]
        · simp only [he1, Bool.false_eq_true, if_false]
          cases hd1 : aLookup (recreate st m).desired m with
          | none => simp [recreate_keysOf_desired]
          | some hcc => simp [recreate_keysOf_desired]

theorem ensureContainer_current_ne {st : St} {m n : String} (h : m ≠ n) :
    aLookup (ensureContainer st m).current n = aLookup st.current n := by
  by_cases he : st.err.isSome
  · rw [ensureContainer_latch m he]
  · simp only [ensureContainer, he, Bool.false_eq_true, if_false]
    cases hdf : diffContainer st m with
    | error e => rfl
    | ok df =>
      by_cases hdd : df = ""
      · simp [hdd]
      · simp only [hdd, if_false]
        by_cases he1 : (recreate st m).err.isSome
        · simp [he1, recreate_current_ne h]
        · simp only [he1, Bool.false_eq_true, if_false]
          cases hd1 : aLookup (recreate st m).desired m with
          | none => simp [recreate_current_ne h]
          | some hcc => simp [aLookup_aInsert_ne, h, recreate_current_ne h]

theorem ensureContainer_opsExt (st : St) (m : String) :
    ∃ ex, (ensureContainer st m).ops = st.ops ++ ex ∧ ∀ o ∈ ex, o.name = m := by
  by_cases he : st.err.isSome
  · rw [ensureContainer_latch m he]
    exact ⟨[], by simp⟩
  · simp only [ensureContainer, he, Bool.false_eq_true, if_false]
    cases hdf : diffContainer st m with
    | error e => exact ⟨[], by simp⟩
    | ok df =>
      by_cases hdd : df = ""
      · simp only [hdd, if_true]
        exact ⟨[], by simp⟩
      · simp only [hdd, if_false]
        obtain ⟨ex, hex, hname⟩ := recreate_opsExt st m
        by_cases he1 : (recreate st m).err.isSome
        · simp only [he1, if_true]
          exact ⟨ex, hex, hname⟩
        · simp only [he1, Bool.false_eq_true, if_false]
          cases hd1 : aLookup (recreate st m).desired m with
          | none => exact ⟨ex, hex, hname⟩
          | some hcc => exact ⟨ex, hex, hname⟩

theorem pass1Step_desired (st : St) (m : String) :
    (pass1Step st m).desired = st.desired := by
  by_cases he : st.err.isSome
  · rw [pass1Step_latch m he]
  · simp only [pass1Step, he, Bool.false_eq_true, if_false]
    cases hr : aLookup st.current m with
    | none => rfl
    | some r =>
      by_cases hx : r.status.exists_ = false
      · simp [hx]
      · by_cases hrun : r.status.running = true <;> simp [hx, hrun]

theorem pass1Step_current_ne {st : St} {m n : String} (h : m ≠ n) :
    aLookup (pass1Step st m).current n = aLookup st.current n := by
  by_cases he : st.err.isSome
  · rw [pass1Step_latch m he]
  · simp only [pass1Step, he, Bool.false_eq_true, if_false]
    cases hr : aLookup st.current m with
    | none => rfl
    | some r =>
      by_cases hx : r.status.exists_ = false
      · simp [hx, aLookup_aErase_ne, h]
      · by_cases hrun : r.status.running = true <;>
          simp [hx, hrun, aLookup_aInsert_ne, h]

theorem pass1Step_opsExt (st : St) (m : String) :
    ∃ ex, (pass1Step st m).ops = st.ops ++ ex ∧ ∀ o ∈ ex, o.name = m := by
  by_cases he : st.err.isSome
  · rw [pass1Step_latch m he]
    exact ⟨[], by simp⟩
  · simp only [pass1Step, he, Bool.false_eq_true, if_false]
    cases hr : aLookup st.current m with
    | none => exact ⟨[], by simp⟩
    | some r =>
      by_cases hx : r.status.exists_ = false
      · simp only [hx, if_true]
        exact ⟨[], by simp⟩
      · by_cases hrun : r.status.running = true
        · simp only [hx, Bool.false_eq_true, if_false, hrun, if_true]
          exact ⟨[], by simp⟩
        · simp only [hx, Bool.false_eq_true, if_false, hrun, if_true]
          exact ⟨[Op.start m], by simp, by simp [Op.name]⟩

theorem pass2Step_desired_ne {st : St} {m n : String} (h : m ≠ n) :
    aLookup (pass2Step st m).desired n = aLookup st.desired n := by
  unfold pass2Step
  rw [ensureExists_desired_ne h, ensureConfigured_desired]

theorem pass2Step_keysOf_desired (st : St) (m : String) :
    keysOf (pass2Step st m).desired = keysOf st.desired := by
  unfold pass2Step
  rw [ensureExists_keysOf_desired, ensureConfigured_desired]

theorem pass2Step_current_ne {st : St} {m n : String} (h : m ≠ n) :
    aLookup (pass2Step st m).current n = aLookup st.current n := by
  unfold pass2Step
  rw [ensureExists_current_ne h, ensureConfigured_current_ne h]

theorem pass2Step_opsExt (st : St) (m : String) :
    ∃ ex, (pass2Step st m).ops = st.ops ++ ex ∧ ∀ o ∈ ex, o.name = m :=
  opsExt_trans (ensureConfigured_opsExt st m) (ensureExists_opsExt (ensureConfigured st m) m)

theorem pass3Step_desired_ne {st : St} {m n : String} (h : m ≠ n) :
    aLookup (pass3Step st m).desired n = aLookup st.desired n := by
  unfold pass3Step
  by_cases he3 : (ensureContainer (ensureConfigured (ensureHost st m) m) m).err.isSome
  · simp only [he3, if_true]
    rw [ensureContainer_desired_ne h, ensureConfigured_desired, ensureHost_desired_ne h]
  · simp only [he3, Bool.false_eq_true, if_false]
    by_cases hd : (aLookup (ensureContainer (ensureConfigured (ensureHost st m) m) m).desired
        m).isSome
    · simp only [hd, if_true]
      rw [ensureContainer_desired_ne h, ensureConfigured_desired, ensureHost_desired_ne h]
    · simp only [hd, Bool.false_eq_true, if_false]
      rw [removeContainer_desired, ensureContainer_desired_ne h, ensureConfigured_desired,
        ensureHost_desired_ne h]

theorem pass3Step_keysOf_desired (st : St) (m : String) :
    keysOf (pass3Step st m).desired = keysOf st.desired := by
  unfold pass3Step
  by_cases he3 : (ensureContainer (ensureConfigured (ensureHost st m) m) m).err.isSome
  · simp only [he3, if_true]
    rw [ensureContainer_keysOf_desired, ensureConfigured_desired, ensureHost_keysOf_desired]
  · simp only [he3, Bool.false_eq_true, if_false]
    by_cases hd : (aLookup (ensureContainer (ensureConfigured (ensureHost st m) m) m).desired
        m).isSome
    · simp only [hd, if_true]
      rw [ensureContainer_keysOf_desired, ensureConfigured_desired, ensureHost_keysOf_desired]
    · simp only [hd, Bool.false_eq_true, if_false]
      rw [removeContainer_desired, ensureContainer_keysOf_desired, ensureConfigured_desired,
        ensureHost_keysOf_desired]

theorem pass3Step_current_ne {st : St} {m n : String} (h : m ≠ n) :
    aLookup (pass3Step st m).current n = aLookup st.current n := by
  unfold pass3Step
  by_cases he3 : (ensureContainer (ensureConfigured (ensureHost st m) m) m).err.isSome
  · simp only [he3, if_true]
    rw [ensureContainer_current_ne h, ensureConfigured_current_ne h, ensureHost_current_ne h]
  · simp only [he3, Bool.false_eq_true, if_false]
    by_cases hd : (aLookup (ensureContainer (ensureConfigured (ensureHost st m) m) m).desired
        m).isSome
    · simp only [hd, if_true]
      rw [ensureContainer_current_ne h, ensureConfigured_current_ne h, ensureHost_current_ne h]
    · simp only [hd, Bool.false_eq_true, if_false]
      rw [removeContainer_current_ne h, ensureContainer_current_ne h,
        ensureConfigured_current_ne h, ensureHost_current_ne h]

theorem pass3Step_opsExt (st : St) (m : String) :
    ∃ ex, (pass3Step st m).ops = st.ops ++ ex ∧ ∀ o ∈ ex, o.name = m := by
  unfold pass3Step
  have hbase := opsExt_trans (opsExt_trans (ensureHost_opsExt st m)
    (ensureConfigured_opsExt (ensureHost st m) m))
    (ensureContainer_opsExt (ensureConfigured (ensureHost st m) m) m)
  by_cases he3 : (ensureContainer (ensureConfigured (ensureHost st m) m) m).err.isSome
  · simp only [he3, if_true]
    exact hbase
  · simp only [he3, Bool.false_eq_true, if_false]
    by_cases hd : (aLookup (ensureContainer (ensureConfigured (ensureHost st m) m) m).desired
        m).isSome
    · simp only [hd, if_true]
      exact hbase
    · simp only [hd, Bool.false_eq_true, if_false]
      exact opsExt_trans hbase
        (removeContainer_opsExt (ensureContainer (ensureConfigured (ensureHost st m) m) m) m)

/-! ### Fold-level frame lemmas -/

theorem foldl_current_ne {f : St → String → St} {n : String}
    (hf : ∀ st m, m ≠ n → aLookup (f st m).current n = aLookup st.current n)
    {L : List String} (hL : n ∉ L) (st : St) :
    aLookup (L.foldl f st).current n = aLookup st.current n := by
  induction L generalizing st with
  | nil => rfl
  | cons m t ih =>
    have hm : m ≠ n := fun hc => hL (by simp [hc])
    have ht : n ∉ t := fun hc => hL (by simp [hc])
    simp only [List.foldl_cons]
    rw [ih ht, hf st m hm]

theorem foldl_desired_ne {f : St → String → St} {n : String}
    (hf : ∀ st m, m ≠ n → aLookup (f st m).desired n = aLookup st.desired n)
    {L : List String} (hL : n ∉ L) (st : St) :
    aLookup (L.foldl f st).desired n = aLookup st.desired n := by
  induction L generalizing st with
  | nil => rfl
  | cons m t ih =>
    have hm : m ≠ n := fun hc => hL (by simp [hc])
    have ht : n ∉ t := fun hc => hL (by simp [hc])
    simp only [List.foldl_cons]
    rw [ih ht, hf st m hm]

theorem filter_ops_of_opsExt {q : Op → Bool} {n m : String} (hq : ∀ o, q o = true → o.name = n)
    (hm : m ≠ n) {stA stB : St}
    (hext : ∃ ex, stB.ops = stA.ops ++ ex ∧ ∀ o ∈ ex, o.name = m) :
    stB.ops.filter q = stA.ops.filter q := by
  obtain ⟨ex, he, hn⟩ := hext
  rw [he, List.filter_append]
  have hnil : ex.filter q = [] := by
    rw [List.filter_eq_nil_iff]
    intro o ho hqo
    exact hm ((hn o ho) ▸ hq o hqo)
  rw [hnil, List.append_nil]

theorem foldl_filter_ops {f : St → String → St} {q : Op → Bool} {n : String}
    (hq : ∀ o, q o = true → o.name = n)
    (hf : ∀ st m, m ≠ n → ∃ ex, (f st m).ops = st.ops ++ ex ∧ ∀ o ∈ ex, o.name = m)
    {L : List String} (hL : n ∉ L) (st : St) :
    ((L.foldl f st).ops).filter q = st.ops.filter q := by
  induction L generalizing st with
  | nil => rfl
  | cons m t ih =>
    have hm : m ≠ n := fun hc => hL (by simp [hc])
    have ht : n ∉ t := fun hc => hL (by simp [hc])
    simp only [List.foldl_cons]
    rw [ih ht, filter_ops_of_opsExt hq hm (hf st m hm)]

theorem foldl_keysOf_desired {f : St → String → St}
    (hf : ∀ st m, keysOf (f st m).desired = keysOf st.desired)
    (L : List String) (st : St) :
    keysOf (L.foldl f st).desired = keysOf st.desired := by
  induction L generalizing st with
  | nil => rfl
  | cons m t ih =>
    simp only [List.foldl_cons]
    rw [ih, hf st m]

/-! ### Error shapes -/

theorem diffHost_error {st : St} {m : String} {e : EErr} (h : diffHost st m = .error e) :
    e = EErr.cantUpdateNonExisting m ∨ e = EErr.cantUpdateRemoved m := by
  unfold diffHost isUpdatable at h
  by_cases h1 : (aLookup st.current m).isNone
  · simp only [h1, if_true] at h
    left
    injection h with h2
    exact h2.symm
  · by_cases h2 : (aLookup st.desired m).isNone
    · simp only [h1, Bool.false_eq_true, if_false, h2, if_true] at h
      right
      injection h with h2
      exact h2.symm
    · simp [h1, h2] at h

theorem diffContainer_error {st : St} {m : String} {e : EErr}
    (h : diffContainer st m = .error e) :
    e = EErr.cantUpdateNonExisting m ∨ e = EErr.cantUpdateRemoved m := by
  unfold diffContainer isUpdatable at h
  by_cases h1 : (aLookup st.current m).isNone
  · simp only [h1, if_true] at h
    left
    injection h with h2
    exact h2.symm
  · by_cases h2 : (aLookup st.desired m).isNone
    · simp only [h1, Bool.false_eq_true, if_false, h2, if_true] at h
      right
      injection h with h2
      exact h2.symm
    · simp [h1, h2] at h

/-- The error is anything but the preconditions error. -/
def errOk (e : Option EErr) : Prop := e ≠ some EErr.preconditionsNotMet

theorem createAndStart_errOk {st : St} (m : String) (h : errOk st.err) :
    errOk (createAndStart st m).err := by
  unfold createAndStart
  cases hd : aLookup st.desired m with
  | none => simp [errOk]
  | some d => exact h

theorem ensureConfigured_errOk {st : St} (m : String) (h : errOk st.err) :
    errOk (ensureConfigured st m).err := by
  rw [ensureConfigured_err]
  exact h

theorem ensureExists_errOk {st : St} (m : String) (h : errOk st.err) :
    errOk (ensureExists st m).err := by
  by_cases he : st.err.isSome
  · rw [ensureExists_latch m he]
    exact h
  · simp only [ensureExists, he, Bool.false_eq_true, if_false]
    by_cases hx : ((aLookup st.current m).map (fun h => h.status.exists_)).getD false
    · simp only [hx, if_true]
      exact h
    · simp only [hx, Bool.false_eq_true, if_false]
      have hca := createAndStart_errOk m h
      by_cases he1 : (createAndStart st m).err.isSome
      · simp only [he1, if_true]
        exact hca
      · simp only [he1, Bool.false_eq_true, if_false]
        cases hd1 : aLookup (createAndStart st m).desired m with
        | none => exact hca
        | some d =>
          cases hr : aLookup st.current m <;> simp only [hd1, hr] <;> exact hca

theorem recreate_errOk {st : St} (m : String) (h : errOk st.err) :
    errOk (recreate st m).err := by
  unfold recreate
  apply createAndStart_errOk
  rw [removeContainer_err]
  exact h

theorem ensureHost_errOk {st : St} (m : String) (h : errOk st.err) :
    errOk (ensureHost st m).err := by
  by_cases he : st.err.isSome
  · rw [ensureHost_latch m he]
    exact h
  · simp only [ensureHost, he, Bool.false_eq_true, if_false]
    cases hdf : diffHost st m with
    | error e =>
      rcases diffHost_error hdf with he2 | he2 <;> simp [errOk, he2]
    | ok df =>
      by_cases hdd : df = ""
      · simp only [hdd, if_true]
        exact h
      · simp only [hdd, if_false]
        have hrec := recreate_errOk m h
        by_cases he1 : (recreate st m).err.isSome
        · simp only [he1, if_true]
          exact hrec
        · simp only [he1, Bool.false_eq_true, if_false]
          cases hd1 : aLookup (recreate st m).desired m with
          | none => exact hrec
          | some hcc => exact hrec

theorem ensureContainer_errOk {st : St} (m : String) (h : errOk st.err) :
    errOk (ensureContainer st m).err := by
  by_cases he : st.err.isSome
  · rw [ensureContainer_latch m he]
    exact h
  · simp only [ensureContainer, he, Bool.false_eq_true, if_false]
    cases hdf : diffContainer st m with
    | error e =>
      rcases diffContainer_error hdf with he2 | he2 <;> simp [errOk, he2]
    | ok df =>
      by_cases hdd : df = ""
      · simp only [hdd, if_true]
        exact h
      · simp only [hdd, if_false]
        have hrec := recreate_errOk m h
        by_cases he1 : (recreate st m).err.isSome
        · simp only [he1, if_true]
          exact hrec
        · simp only [he1, Bool.false_eq_true, if_false]
          cases hd1 : aLookup (recreate st m).desired m with
          | none => exact hrec
          | some hcc => exact hrec

theorem pass1Step_errOk {st : St} (m : String) (h : errOk st.err) :
    errOk (pass1Step st m).err := by
  rw [pass1Step_err]
  exact h

theorem pass2Step_errOk {st : St} (m : String) (h : errOk st.err) :
    errOk (pass2Step st m).err :=
  ensureExists_errOk m (ensureConfigured_errOk m h)

theorem pass3Step_errOk {st : St} (m : String) (h : errOk st.err) :
    errOk (pass3Step st m).err := by
  unfold pass3Step
  have h3 := ensureContainer_errOk m (ensureConfigured_errOk m (ensureHost_errOk m h))
  by_cases he3 : (ensureContainer (ensureConfigured (ensureHost st m) m) m).err.isSome
  · simp only [he3, if_true]
    exact h3
  · simp only [he3, Bool.false_eq_true, if_false]
    by_cases hd : (aLookup (ensureContainer (ensureConfigured (ensureHost st m) m) m).desired
        m).isSome
    · simp only [hd, if_true]
      exact h3
    · simp only [hd, Bool.false_eq_true, if_false]
      rw [removeContainer_err]
      exact h3

theorem foldl_errOk {f : St → String → St}
    (hf : ∀ (st : St) (m : String), errOk st.err → errOk (f st m).err)
    (L : List String) (st : St) (h : errOk st.err) : errOk ((L.foldl f st).err) := by
  induction L generalizing st with
  | nil => exact h
  | cons m t ih =>
    simp only [List.foldl_cons]
    exact ih _ (hf st m h)

theorem execute_errOk (cur des : containersState) :
    errOk (execute cur des).err := by
  unfold execute executeBody
  apply foldl_errOk (fun st m => pass3Step_errOk m)
  apply foldl_errOk (fun st m => pass2Step_errOk m)
  apply foldl_errOk (fun st m => pass1Step_errOk m)
  simp [errOk]

/-! ### Engine construction helpers -/

theorem except_toOption_some {ε α : Type} {x : Except ε α} {a : α}
    (h : x.toOption = some a) : x = .ok a := by
  cases x with
  | error e => simp [Except.toOption] at h
  | ok b =>
    simp [Except.toOption] at h
    rw [h]

theorem Containers_New_ok {c : Containers} {eng : containersEngine}
    (h : Containers.New (some c) = .ok eng) :
    eng.desired = ((containersStateNew c.desiredState).toOption).getD []
    ∧ eng.heap = [((containersStateNew c.previousState).toOption).getD []]
    ∧ eng.curRef = none ∧ eng.prevRef = 0 := by
  unfold Containers.New at h
  cases hv : Containers.Validate (some c) with
  | error e =>
    rw [hv] at h
    cases h
  | ok u =>
    rw [hv] at h
    injection h with h
    rw [← h]
    exact ⟨rfl, rfl, rfl, rfl⟩

theorem Containers_New_curRef_none {c : Option Containers} {eng : containersEngine}
    (h : Containers.New c = .ok eng) : eng.curRef = none := by
  cases c with
  | none =>
    unfold Containers.New Containers.Validate at h
    cases h
  | some cc => exact (Containers_New_ok h).2.2.1

/-! ### Claim theorems: validation, PKI, YAML, controlplane -/

/-- C7: Validate (and hence New) rejects every Containers value in which both
previousState and desiredState are absent (including a nil receiver) or both
are empty mappings; for such inputs no engine is produced (and the validation
is a pure function, so no operation is performed). -/
theorem C7_validate_rejects_empty (c : Option Containers)
    (h : c = none
      ∨ (∃ cc, c = some cc ∧ cc.previousState = none ∧ cc.desiredState = none)
      ∨ (∃ cc, c = some cc ∧ cc.previousState = some [] ∧ cc.desiredState = some [])) :
    (∃ e, Containers.Validate c = .error e) ∧ ∀ eng, Containers.New c ≠ .ok eng := by
  have hval : ∃ e, Containers.Validate c = .error e := by
    rcases h with h | ⟨cc, hc, h1, h2⟩ | ⟨cc, hc, h1, h2⟩
    · rw [h]
      exact ⟨VErr.statesNotDefined, rfl⟩
    · rw [hc]
      refine ⟨VErr.statesNotDefined, ?_⟩
      simp [Containers.Validate, h1, h2]
    · rw [hc]
      refine ⟨VErr.noContainersDefined, ?_⟩
      simp [Containers.Validate, h1, h2, containersStateNew]
  obtain ⟨e, he⟩ := hval
  refine ⟨⟨e, he⟩, fun eng hne => ?_⟩
  unfold Containers.New at hne
  rw [he] at hne
  cases hne

theorem C7_validate_rejects_empty_witness :
    (∃ e, Containers.Validate
        (some { previousState := some [], desiredState := some [] }) = .error e)
    ∧ ∀ eng, Containers.New
        (some { previousState := some [], desiredState := some [] }) ≠ .ok eng :=
  C7_validate_rejects_empty _ (Or.inr (Or.inr ⟨_, rfl, rfl, rfl⟩))

/-- C8: for every KubeAPIServer input, the request for the API-server serving
certificate carries in its inheritance chain the default template whose DNS
names contain the six canonical names and whose IP addresses contain 127.0.0.1,
and the user's externalNames and serverIPs are appended to those defaults
(never replacing them). -/
theorem C8_kubeAPIServer_server_cert_sans (k : Kubernetes) (dc : Certificate) :
    ∃ tmpl ∈ (kubeAPIServerServerCR k dc).Certificates,
      tmpl.dnsNames = ["localhost", "kubernetes", "kubernetes.default",
          "kubernetes.default.svc", "kubernetes.default.svc.cluster",
          "kubernetes.default.svc.cluster.local"] ++ k.kubeAPIServer.externalNames
      ∧ tmpl.ipAddresses = ["127.0.0.1"] ++ k.kubeAPIServer.serverIPs
      ∧ "localhost" ∈ tmpl.dnsNames ∧ "kubernetes" ∈ tmpl.dnsNames
      ∧ "kubernetes.default" ∈ tmpl.dnsNames ∧ "kubernetes.default.svc" ∈ tmpl.dnsNames
      ∧ "kubernetes.default.svc.cluster" ∈ tmpl.dnsNames
      ∧ "kubernetes.default.svc.cluster.local" ∈ tmpl.dnsNames
      ∧ "127.0.0.1" ∈ tmpl.ipAddresses
      ∧ (∀ x ∈ k.kubeAPIServer.externalNames, x ∈ tmpl.dnsNames)
      ∧ (∀ x ∈ k.kubeAPIServer.serverIPs, x ∈ tmpl.ipAddresses) := by
  refine ⟨defaultKubeAPIServerServerCertificate (some k.kubeAPIServer), ?_, ?_⟩
  · simp [kubeAPIServerServerCR]
  · simp only [defaultKubeAPIServerServerCertificate, serverUsage]
    simp
    exact ⟨fun x hx => Or.inr (Or.inr (Or.inr (Or.inr (Or.inr (Or.inr hx))))),
      fun x hx => Or.inr hx⟩

/-- C9 counterexample: a persisted-state document with the unknown top-level
field bogusField is accepted by FromYaml (an engine is produced), refuting the
claim that any unknown top-level field is rejected. -/
def c9Hcc : hostConfiguredContainer :=
  { host := "h1", config := "c1", status := { exists_ := false, running := false },
    configFiles := [] }

def c9Doc : YamlDoc := [("desiredState", [("a", c9Hcc)]), ("bogusField", [])]

theorem C9_unknown_field_accepted :
    ("bogusField" ≠ "previousState" ∧ "bogusField" ≠ "desiredState")
    ∧ (FromYaml c9Doc).toOption.isSome = true := by
  constructor
  · exact ⟨by decide, by decide⟩
  · rfl

/-- C9 amended: FromYaml ignores unknown top-level fields instead of rejecting
them; prepending any field with an unknown name to the document leaves the
result of FromYaml unchanged. -/
theorem C9_unknown_fields_ignored (doc : YamlDoc) (k : String) (v : ContainersState)
    (h1 : k ≠ "previousState") (h2 : k ≠ "desiredState") :
    FromYaml ((k, v) :: doc) = FromYaml doc := by
  unfold FromYaml unmarshalContainers
  simp [aLookup, h1, h2]

theorem C9_unknown_fields_ignored_witness :
    FromYaml (("bogus", []) :: [("desiredState", [("a", c9Hcc)])])
      = FromYaml [("desiredState", [("a", c9Hcc)])] :=
  C9_unknown_fields_ignored _ "bogus" [] (by decide) (by decide)

/-- C10: every Controlplane configuration that passes Validate yields, whenever
the inner engine is produced, a desired state whose name list is exactly
kube-apiserver, kube-controller-manager, kube-scheduler, independent of the
configuration and previous state. -/
theorem C10_controlplane_desired_names (c : Controlplane) (eng : containersEngine)
    (h : Controlplane.New c = .ok (some eng)) :
    keysOf eng.desired = ["kube-apiserver", "kube-controller-manager", "kube-scheduler"] := by
  unfold Controlplane.New Controlplane.Validate at h
  by_cases hv : c.componentsValid
  · simp only [hv, if_true] at h
    injection h with h
    have hok := except_toOption_some h
    have hdes := (Containers_New_ok hok).1
    have hany : (controlplaneDesiredState c).any (fun p => p.1 == "") = false := rfl
    rw [hdes]
    simp only [containersStateNew, Option.getD_some, hany, Bool.false_eq_true, if_false,
      Except.toOption]
    simp [controlplaneDesiredState, keysOf]
  · simp [hv] at h

theorem C10_controlplane_desired_names_witness :
    keysOf
      ({ heap := [[]], prevRef := 0, curRef := none,
         desired := controlplaneDesiredState
           { state := none, componentsValid := true, kasHcc := c9Hcc, kcmHcc := c9Hcc,
             ksHcc := c9Hcc } } : containersEngine).desired
      = ["kube-apiserver", "kube-controller-manager", "kube-scheduler"] :=
  C10_controlplane_desired_names
    { state := none, componentsValid := true, kasHcc := c9Hcc, kcmHcc := c9Hcc,
      ksHcc := c9Hcc } _ (by rfl)

/-! ### Claim theorems: preconditions, removal bug, previous-state aliasing -/

/-- C6: on a validated engine fresh from New (currentState still nil), Execute
returns the preconditions error, leaves the engine unchanged and issues no
operation; once CheckCurrentState has run (it always populates currentState),
Execute never fails with the preconditions error again. -/
theorem C6_execute_preconditions (c : Option Containers) (e : containersEngine)
    (h : Containers.New c = .ok e) :
    executeE e = (e, [], some EErr.preconditionsNotMet)
    ∧ ∀ w : World,
        (executeE (checkCurrentState e w)).2.2 ≠ some EErr.preconditionsNotMet := by
  have hc : e.curRef = none := Containers_New_curRef_none h
  constructor
  · unfold executeE
    rw [hc]
  · intro w
    unfold checkCurrentState executeE
    rw [hc]
    simp only [Option.getD_none]
    exact execute_errOk _ _

def c6Hcc : hostConfiguredContainer :=
  { host := "h1", config := "c1", status := { exists_ := true, running := true },
    configFiles := [] }

def c6Containers : Containers :=
  { previousState := some [("a", c6Hcc)], desiredState := some [("a", c6Hcc)] }

def c6Engine : containersEngine :=
  { heap := [[("a", c6Hcc)]], prevRef := 0, curRef := none, desired := [("a", c6Hcc)] }

theorem C6_execute_preconditions_witness :
    executeE c6Engine = (c6Engine, [], some EErr.preconditionsNotMet)
    ∧ ∀ w : World,
        (executeE (checkCurrentState c6Engine w)).2.2 ≠ some EErr.preconditionsNotMet :=
  C6_execute_preconditions (some c6Containers) c6Engine (by rfl)

/-- C1: evaluation of Execute at the failing input.  With current state
containing a and b, both existing and running, and desired state containing
only a, Execute fails with the non-updatable error for b raised by
ensureHost/diffHost/isUpdatable in pass 3, and never issues RemoveContainer
for b: the removal branch at the end of pass 3 is unreachable because the
membership check happens only after the per-name update steps already
failed.  This refutes the claim that such a name is removed exactly once and
that Execute does not fail on it. -/
theorem C1_removed_name_fails_execute :
    (execute [("a", c6Hcc), ("b", c6Hcc)] [("a", c6Hcc)]).err
        = some (EErr.cantUpdateRemoved "b")
    ∧ Op.remove "b" ∉ (execute [("a", c6Hcc), ("b", c6Hcc)] [("a", c6Hcc)]).ops := by
  decide

/-- C3 counterexample: a single successful CheckCurrentState on a validated
engine already mutates the previousState mapping in place (the stale status of
entry a is overwritten through the aliased map), refuting the claim that
previousState always keeps the contents it had at construction. -/
def c3Hcc : hostConfiguredContainer :=
  { host := "h1", config := "c1", status := { exists_ := false, running := false },
    configFiles := [] }

def c3Containers : Containers :=
  { previousState := some [("a", c3Hcc)], desiredState := some [("a", c3Hcc)] }

def c3Engine : containersEngine :=
  { heap := [[("a", c3Hcc)]], prevRef := 0, curRef := none, desired := [("a", c3Hcc)] }

def c3World : World := { obs := [("a", { exists_ := true, running := true })], files := [] }

theorem C3_previousState_mutated :
    Containers.New (some c3Containers) = .ok c3Engine
    ∧ prevView (checkCurrentState c3Engine c3World) ≠ prevView c3Engine := by
  refine ⟨rfl, ?_⟩
  decide

/-- C3 amended: previousState is not preserved; the first CheckCurrentState
aliases currentState to the previousState map object and every later refresh
or Execute mutation is visible through previousState, which therefore always
equals the reconciler's current state: after CheckCurrentState the
previousState view is the refreshed state, and after Execute it is exactly the
current state Execute produced. -/
theorem C3_previousState_tracks_current (e : containersEngine)
    (he : e.curRef = none ∨ e.curRef = some e.prevRef)
    (hlen : e.prevRef < e.heap.length) :
    (∀ w : World,
        (checkCurrentState e w).curRef = some e.prevRef
        ∧ prevView (checkCurrentState e w) = checkState (prevView e) w)
    ∧ (e.curRef = some e.prevRef →
        prevView (executeE e).1 = (execute (prevView e) e.desired).current) := by
  have hr : e.curRef.getD e.prevRef = e.prevRef := by
    rcases he with he | he <;> simp [he]
  constructor
  · intro w
    unfold checkCurrentState
    rw [hr]
    refine ⟨rfl, ?_⟩
    unfold prevView
    simp only
    rw [List.getD_eq_getElem?_getD, List.getElem?_set_self, List.getD_eq_getElem?_getD]
    · simp
    · exact hlen
  · intro hcur
    unfold executeE
    rw [hcur]
    unfold prevView
    simp only
    rw [List.getD_eq_getElem?_getD, List.getElem?_set_self, List.getD_eq_getElem?_getD]
    · simp
    · exact hlen

theorem C3_previousState_tracks_current_witness :
    (∀ w : World,
        (checkCurrentState c6Engine w).curRef = some c6Engine.prevRef
        ∧ prevView (checkCurrentState c6Engine w) = checkState (prevView c6Engine) w)
    ∧ (c6Engine.curRef = some c6Engine.prevRef →
        prevView (executeE c6Engine).1
          = (execute (prevView c6Engine) c6Engine.desired).current) :=
  C3_previousState_tracks_current c6Engine (Or.inl rfl) (by decide)

/-! ### Well-formedness preservation across steps -/

/-- Both state maps of a reconciler state are well-formed. -/
def WfSt (st : St) : Prop := WfS st.current ∧ WfS st.desired

/-- Every current entry is observed to exist and run. -/
def AllGood (cur : containersState) : Prop :=
  ∀ n r, aLookup cur n = some r → r.status.exists_ = true ∧ r.status.running = true

/-- Two HCCs agree on every user-specified field (everything but the status). -/
def sameSpec (a b : hostConfiguredContainer) : Prop :=
  a.host = b.host ∧ a.config = b.config ∧ a.configFiles = b.configFiles

theorem ensureConfigured_wf {st : St} (m : String) (h : WfSt st) :
    WfSt (ensureConfigured st m) := by
  by_cases he : st.err.isSome
  · rw [ensureConfigured_latch m he]
    exact h
  · simp only [ensureConfigured, he, Bool.false_eq_true, if_false]
    cases hd : aLookup st.desired m with
    | none => exact h
    | some d =>
      have hdcf : (d.configFiles.map (·.1)).Nodup := WfS_cf h.2 hd
      cases hr : aLookup st.current m with
      | none =>
        simp only [hd, hr]
        exact ⟨WfS_aInsert h.1 m hdcf, h.2⟩
      | some r0 =>
        simp only [hd, hr]
        exact ⟨WfS_aInsert h.1 m hdcf, h.2⟩

theorem createAndStart_wf {st : St} (m : String) (h : WfSt st) :
    WfSt (createAndStart st m) := by
  unfold createAndStart
  cases hd : aLookup st.desired m with
  | none => exact h
  | some d =>
    have hdcf : (d.configFiles.map (·.1)).Nodup := WfS_cf h.2 hd
    exact ⟨h.1, WfS_aInsert h.2 m hdcf⟩

theorem ensureExists_wf {st : St} (m : String) (h : WfSt st) :
    WfSt (ensureExists st m) := by
  by_cases he : st.err.isSome
  · rw [ensureExists_latch m he]
    exact h
  · simp only [ensureExists, he, Bool.false_eq_true, if_false]
    by_cases hx : ((aLookup st.current m).map (fun h => h.status.exists_)).getD false
    · simp only [hx, if_true]
      exact h
    · simp only [hx, Bool.false_eq_true, if_false]
      have hca := createAndStart_wf m h
      by_cases he1 : (createAndStart st m).err.isSome
      · simp only [he1, if_true]
        exact hca
      · simp only [he1, Bool.false_eq_true, if_false]
        cases hd1 : aLookup (createAndStart st m).desired m with
        | none => exact hca
        | some d =>
          have hdcf : (d.configFiles.map (·.1)).Nodup := WfS_cf hca.2 hd1
          cases hr : aLookup st.current m with
          | none =>
            simp only [hd1, hr]
            exact ⟨WfS_aInsert hca.1 m hdcf, hca.2⟩
          | some r0 =>
            simp only [hd1, hr]
            have hr0cf : (r0.configFiles.map (·.1)).Nodup := WfS_cf h.1 hr
            exact ⟨WfS_aInsert hca.1 m hr0cf, hca.2⟩

theorem removeContainer_wf {st : St} (m : String) (h : WfSt st) :
    WfSt (removeContainer st m) := by
  unfold removeContainer
  cases hr : aLookup st.current m with
  | none => exact h
  | some r => exact ⟨WfS_aErase h.1 m, h.2⟩

theorem recreate_wf {st : St} (m : String) (h : WfSt st) : WfSt (recreate st m) :=
  createAndStart_wf m (removeContainer_wf m h)

theorem ensureHost_wf {st : St} (m : String) (h : WfSt st) :
    WfSt (ensureHost st m) := by
  by_cases he : st.err.isSome
  · rw [ensureHost_latch m he]
    exact h
  · simp only [ensureHost, he, Bool.false_eq_true, if_false]
    cases hdf : diffHost st m with
    | error e => exact ⟨h.1, h.2⟩
    | ok df =>
      by_cases hdd : df = ""
      · simp only [hdd, if_true]
        exact h
      · simp only [hdd, if_false]
        have hrec := recreate_wf m h
        by_cases he1 : (recreate st m).err.isSome
        · simp only [he1, if_true]
          exact hrec
        · simp only [he1, Bool.false_eq_true, if_false]
          cases hd1 : aLookup (recreate st m).desired m with
          | none => exact hrec
          | some hcc =>
            have hcf : (hcc.configFiles.map (·.1)).Nodup := WfS_cf hrec.2 hd1
            exact ⟨WfS_aInsert hrec.1 m hcf, hrec.2⟩

theorem ensureContainer_wf {st : St} (m : String) (h : WfSt st) :
    WfSt (ensureContainer st m) := by
  by_cases he : st.err.isSome
  · rw [ensureContainer_latch m he]
    exact h
  · simp only [ensureContainer, he, Bool.false_eq_true, if_false]
    cases hdf : diffContainer st m with
    | error e => exact ⟨h.1, h.2⟩
    | ok df =>
      by_cases hdd : df = ""
      · simp only [hdd, if_true]
        exact h
      · simp only [hdd, if_false]
        have hrec := recreate_wf m h
        by_cases he1 : (recreate st m).err.isSome
        · simp only [he1, if_true]
          exact hrec
        · simp only [he1, Bool.false_eq_true, if_false]
          cases hd1 : aLookup (recreate st m).desired m with
          | none => exact hrec
          | some hcc =>
            have hcf : (hcc.configFiles.map (·.1)).Nodup := WfS_cf hrec.2 hd1
            exact ⟨WfS_aInsert hrec.1 m hcf, hrec.2⟩

theorem pass1Step_wf {st : St} (m : String) (h : WfSt st) : WfSt (pass1Step st m) := by
  by_cases he : st.err.isSome
  · rw [pass1Step_latch m he]
    exact h
  · simp only [pass1Step, he, Bool.false_eq_true, if_false]
    cases hr : aLookup st.current m with
    | none => exact h
    | some r =>
      by_cases hx : r.status.exists_ = false
      · simp only [hx, if_true]
        exact ⟨WfS_aErase h.1 m, h.2⟩
      · by_cases hrun : r.status.running = true
        · simp only [hx, Bool.false_eq_true, if_false, hrun, if_true]
          exact h
        · simp only [hx, Bool.false_eq_true, if_false, hrun, if_true]
          have hrcf : (r.configFiles.map (·.1)).Nodup := WfS_cf h.1 hr
          exact ⟨WfS_aInsert h.1 m hrcf, h.2⟩

theorem pass2Step_wf {st : St} (m : String) (h : WfSt st) : WfSt (pass2Step st m) :=
  ensureExists_wf m (ensureConfigured_wf m h)

theorem pass3Step_wf {st : St} (m : String) (h : WfSt st) : WfSt (pass3Step st m) := by
  unfold pass3Step
  have h3 := ensureContainer_wf m (ensureConfigured_wf m (ensureHost_wf m h))
  by_cases he3 : (ensureContainer (ensureConfigured (ensureHost st m) m) m).err.isSome
  · simp only [he3, if_true]
    exact h3
  · simp only [he3, Bool.false_eq_true, if_false]
    by_cases hd : (aLookup (ensureContainer (ensureConfigured (ensureHost st m) m) m).desired
        m).isSome
    · simp only [hd, if_true]
      exact h3
    · simp only [hd, Bool.false_eq_true, if_false]
      exact removeContainer_wf m h3

theorem foldl_wf {f : St → String → St}
    (hf : ∀ (st : St) (m : String), WfSt st → WfSt (f st m))
    (L : List String) (st : St) (h : WfSt st) : WfSt (L.foldl f st) := by
  induction L generalizing st with
  | nil => exact h
  | cons m t ih =>
    simp only [List.foldl_cons]
    exact ih _ (hf st m h)

/-! ### Self lemmas: a step at its own name -/

theorem bool_true_of_not_false {b : Bool} (h : ¬b = false) : b = true := by
  cases b
  · exact absurd rfl h
  · rfl

theorem pass1Step_self_good {st : St} {n : String} {r : hostConfiguredContainer}
    (he : st.err = none) (hr : aLookup st.current n = some r)
    (hex : r.status.exists_ = true) (hrun : r.status.running = true) :
    pass1Step st n = st := by
  simp [pass1Step, he, hr, hex, hrun]

theorem pass1Step_self_lookup {st : St} {n : String} (he : st.err = none) :
    (aLookup (pass1Step st n).current n = none ∧ aLookup st.current n = none)
    ∨ (∃ r, aLookup st.current n = some r ∧ r.status.exists_ = false
        ∧ aLookup (pass1Step st n).current n = none)
    ∨ (∃ r, aLookup st.current n = some r ∧ r.status.exists_ = true
        ∧ ∃ r1, aLookup (pass1Step st n).current n = some r1
          ∧ r1.host = r.host ∧ r1.config = r.config ∧ r1.configFiles = r.configFiles
          ∧ r1.status.exists_ = true ∧ r1.status.running = true) := by
  cases hr : aLookup st.current n with
  | none =>
    left
    have : pass1Step st n = st := by simp [pass1Step, he, hr]
    rw [this]
    exact ⟨hr, rfl⟩
  | some r =>
    by_cases hx : r.status.exists_ = false
    · right; left
      refine ⟨r, rfl, hx, ?_⟩
      have : pass1Step st n = { st with current := aErase st.current n } := by
        simp [pass1Step, he, hr, hx]
      rw [this]
      exact aLookup_aErase_self _ _
    · right; right
      have hex : r.status.exists_ = true := bool_true_of_not_false hx
      refine ⟨r, rfl, hex, ?_⟩
      by_cases hrun : r.status.running = true
      · have : pass1Step st n = st := pass1Step_self_good he hr hex hrun
        rw [this]
        exact ⟨r, hr, rfl, rfl, rfl, hex, hrun⟩
      · have : pass1Step st n = { st with
            current := aInsert st.current n
                { r with status := { r.status with running := true } },
            ops := st.ops ++ [Op.start n] } := by
          simp [pass1Step, he, hr, hex, hrun]
        rw [this]
        refine ⟨{ r with status := { r.status with running := true } },
          aLookup_aInsert_self _ _ _, rfl, rfl, rfl, hex, rfl⟩

theorem pass1_fold_allGood {L : List String} {st : St} (he : st.err = none)
    (hpre : ∀ n r1, aLookup st.current n = some r1 → n ∉ L →
      r1.status.exists_ = true ∧ r1.status.running = true) :
    (L.foldl pass1Step st).err = none
    ∧ (L.foldl pass1Step st).desired = st.desired
    ∧ AllGood (L.foldl pass1Step st).current := by
  induction L generalizing st with
  | nil => exact ⟨he, rfl, fun n r1 h => hpre n r1 h (by simp)⟩
  | cons m t ih =>
    simp only [List.foldl_cons]
    have he1 : (pass1Step st m).err = none := by rw [pass1Step_err]; exact he
    have hpre1 : ∀ n r1, aLookup (pass1Step st m).current n = some r1 → n ∉ t →
        r1.status.exists_ = true ∧ r1.status.running = true := by
      intro n r1 h hn
      by_cases hnm : n = m
      · subst hnm
        rcases pass1Step_self_lookup he with ⟨h1, _⟩ | ⟨r, _, _, h1⟩
          | ⟨r, _, _, r2, h1, _, _, _, hex2, hrun2⟩
        · rw [h1] at h; cases h
        · rw [h1] at h; cases h
        · rw [h1] at h
          injection h with h
          rw [← h]
          exact ⟨hex2, hrun2⟩
      · rw [pass1Step_current_ne (Ne.symm hnm)] at h
        exact hpre n r1 h (by simp [hnm, hn])
    obtain ⟨e1, d1, g1⟩ := ih he1 hpre1
    exact ⟨e1, d1.trans (pass1Step_desired st m), g1⟩

theorem pass2Step_self_existing {st : St} {n : String} {r d : hostConfiguredContainer}
    (he : st.err = none) (hd : aLookup st.desired n = some d)
    (hr : aLookup st.current n = some r) (hex : r.status.exists_ = true) :
    pass2Step st n = { st with
      current := aInsert st.current n { r with configFiles := d.configFiles },
      ops := st.ops ++ configureOps n d (filesToUpdate d (some r)) } := by
  unfold pass2Step
  have h1 : ensureConfigured st n = { st with
      current := aInsert st.current n { r with configFiles := d.configFiles },
      ops := st.ops ++ configureOps n d (filesToUpdate d (some r)) } := by
    simp [ensureConfigured, he, hd, hr]
  rw [h1]
  have h2 : aLookup (aInsert st.current n { r with configFiles := d.configFiles }) n
      = some { r with configFiles := d.configFiles } := aLookup_aInsert_self _ _ _
  simp [ensureExists, he, h2, hex]

theorem pass2Step_self_create {st : St} {n : String} {d : hostConfiguredContainer}
    (he : st.err = none) (hd : aLookup st.desired n = some d)
    (hr : aLookup st.current n = none) (hx : d.status.exists_ = false) :
    pass2Step st n = { st with
      current := aInsert (aInsert st.current n d) n
          { d with status := { exists_ := true, running := true } },
      desired := aInsert st.desired n { d with status := { exists_ := true, running := true } },
      ops := st.ops ++ configureOps n d (filesToUpdate d none)
          ++ d.configFiles.map (fun pc => Op.writeFile n pc.1 pc.2)
          ++ [Op.create n, Op.start n] } := by
  unfold pass2Step
  have h1 : ensureConfigured st n = { st with
      current := aInsert st.current n d,
      ops := st.ops ++ configureOps n d (filesToUpdate d none) } := by
    simp [ensureConfigured, he, hd, hr]
  rw [h1]
  have h2 : aLookup (aInsert st.current n d) n = some d := aLookup_aInsert_self _ _ _
  simp [ensureExists, he, h2, hx, createAndStart, hd, aLookup_aInsert_self]

/-- The operations RemoveContainer issues for an entry (modelled, spec 4.5). -/
def removeOpsOf (n : String) (r : hostConfiguredContainer) : List Op :=
  (if r.status.running then [Op.stop n] else []) ++ [Op.remove n]
    ++ r.configFiles.map (fun pc => Op.deleteFile n pc.1)

/-- The operations CreateAndStart issues for a desired entry (modelled, spec 4.5). -/
def createOpsOf (n : String) (d : hostConfiguredContainer) : List Op :=
  d.configFiles.map (fun pc => Op.writeFile n pc.1 pc.2) ++ [Op.create n, Op.start n]

theorem diffHost_of_some {st : St} {n : String} {r d : hostConfiguredContainer}
    (hr : aLookup st.current n = some r) (hd : aLookup st.desired n = some d) :
    diffHost st n = .ok (cmpDiff r.host d.host) := by
  unfold diffHost isUpdatable
  simp only [hr, hd, Option.isNone_some, Bool.false_eq_true, if_false, Option.map_some]
  by_cases hh : r.host = d.host <;> simp [cmpDiff, hh]

theorem diffContainer_of_some {st : St} {n : String} {r d : hostConfiguredContainer}
    (hr : aLookup st.current n = some r) (hd : aLookup st.desired n = some d) :
    diffContainer st n = .ok (cmpDiff r.config d.config) := by
  unfold diffContainer isUpdatable
  simp only [hr, hd, Option.isNone_some, Bool.false_eq_true, if_false, Option.map_some]
  by_cases hc : r.config = d.config <;> simp [cmpDiff, hc]

theorem pass3Step_err_of_removed {st : St} {n : String} {r : hostConfiguredContainer}
    (he : st.err = none) (hr : aLookup st.current n = some r)
    (hd : aLookup st.desired n = none) :
    (pass3Step st n).err = some (EErr.cantUpdateRemoved n) := by
  have hdh : diffHost st n = .error (EErr.cantUpdateRemoved n) := by
    unfold diffHost isUpdatable
    simp [hr, hd]
  have h1 : ensureHost st n = { st with err := some (EErr.cantUpdateRemoved n) } := by
    simp [ensureHost, he, hdh]
  unfold pass3Step
  rw [h1, ensureConfigured_latch _ (by simp), ensureContainer_latch _ (by simp)]
  simp

theorem ensureConfigured_self_synced {st : St} {n : String} {r d : hostConfiguredContainer}
    (he : st.err = none) (hr : aLookup st.current n = some r)
    (hd : aLookup st.desired n = some d) (hcf : r.configFiles = d.configFiles)
    (hnd : (keysOf st.current).Nodup) (hdcf : (d.configFiles.map (·.1)).Nodup) :
    ensureConfigured st n = st := by
  have hins : aInsert st.current n { r with configFiles := d.configFiles } = st.current := by
    rw [← hcf]
    show aInsert st.current n r = st.current
    unfold aInsert
    rw [hr]
    simp [aUpdate_self hnd hr]
  have hfu : filesToUpdate d (some r) = [] := by
    show driftFiles d.configFiles r.configFiles = []
    rw [hcf]
    exact driftFiles_self hdcf
  simp [ensureConfigured, he, hd, hr, hins, hfu, configureOps]
  rw [← he]

theorem pass3Step_self_noop {st : St} {n : String} {r d : hostConfiguredContainer}
    (he : st.err = none) (hr : aLookup st.current n = some r)
    (hd : aLookup st.desired n = some d)
    (hh : r.host = d.host) (hc : r.config = d.config) (hcf : r.configFiles = d.configFiles)
    (hnd : (keysOf st.current).Nodup) (hdcf : (d.configFiles.map (·.1)).Nodup) :
    pass3Step st n = st := by
  have h1 : ensureHost st n = st := by
    rw [ensureHost]
    simp [he, diffHost_of_some hr hd, cmpDiff, hh]
  have h2 : ensureConfigured st n = st := ensureConfigured_self_synced he hr hd hcf hnd hdcf
  have h3 : ensureContainer st n = st := by
    rw [ensureContainer]
    simp [he, diffContainer_of_some hr hd, cmpDiff, hc]
  unfold pass3Step
  rw [h1, h2, h3]
  simp [he, hd]

theorem ensureHost_self_eq {st : St} {n : String} {r d : hostConfiguredContainer}
    (he : st.err = none) (hr : aLookup st.current n = some r)
    (hd : aLookup st.desired n = some d) (hh : r.host = d.host) :
    ensureHost st n = st := by
  simp [ensureHost, he, diffHost_of_some hr hd, cmpDiff, hh]

theorem ensureContainer_self_eq {st : St} {n : String} {r d : hostConfiguredContainer}
    (he : st.err = none) (hr : aLookup st.current n = some r)
    (hd : aLookup st.desired n = some d) (hc : r.config = d.config) :
    ensureContainer st n = st := by
  simp [ensureContainer, he, diffContainer_of_some hr hd, cmpDiff, hc]

theorem recreate_shape {st : St} {n : String} {r d : hostConfiguredContainer}
    (hr : aLookup st.current n = some r) (hd : aLookup st.desired n = some d) :
    recreate st n = { st with
      current := aErase st.current n,
      desired := aInsert st.desired n { d with status := { exists_ := true, running := true } },
      ops := st.ops ++ removeOpsOf n r ++ createOpsOf n d } := by
  unfold recreate removeContainer createAndStart
  simp [hr, hd, removeOpsOf, createOpsOf]

theorem pass3Step_self_recreate_host {st : St} {n : String} {r d : hostConfiguredContainer}
    (he : st.err = none) (hr : aLookup st.current n = some r)
    (hd : aLookup st.desired n = some d) (hh : ¬r.host = d.host)
    (hnd : (keysOf st.current).Nodup) (hdcf : (d.configFiles.map (·.1)).Nodup) :
    pass3Step st n = { st with
      current := aInsert (aErase st.current n) n
          { d with status := { exists_ := true, running := true } },
      desired := aInsert st.desired n { d with status := { exists_ := true, running := true } },
      ops := st.ops ++ removeOpsOf n r ++ createOpsOf n d } := by
  have hrec := recreate_shape hr hd
  have h1 : ensureHost st n = { st with
      current := aInsert (aErase st.current n) n
          { d with status := { exists_ := true, running := true } },
      desired := aInsert st.desired n { d with status := { exists_ := true, running := true } },
      ops := st.ops ++ removeOpsOf n r ++ createOpsOf n d } := by
    simp only [ensureHost, he, Option.isSome_none, Bool.false_eq_true, if_false,
      diffHost_of_some hr hd]
    have hdiff : cmpDiff r.host d.host = "(diff)" := by simp [cmpDiff, hh]
    rw [hdiff]
    simp [hrec, he, aLookup_aInsert_self]
  set d1 : hostConfiguredContainer := { d with status := { exists_ := true, running := true } }
    with hd1
  have hlook1 : aLookup (aInsert (aErase st.current n) n d1) n = some d1 :=
    aLookup_aInsert_self _ _ _
  have hlookd : aLookup (aInsert st.desired n d1) n = some d1 := aLookup_aInsert_self _ _ _
  have hnd1 : (keysOf (aInsert (aErase st.current n) n d1)).Nodup :=
    nodup_keysOf_aInsert _ _ _ ((keysOf_aErase_sublist _ _).nodup hnd)
  have hd1cf : (d1.configFiles.map (·.1)).Nodup := hdcf
  unfold pass3Step
  rw [h1]
  have h2 := @ensureConfigured_self_synced
      { current := aInsert (aErase st.current n) n d1,
        desired := aInsert st.desired n d1,
        ops := st.ops ++ removeOpsOf n r ++ createOpsOf n d, err := st.err }
      n d1 d1 he hlook1 hlookd rfl hnd1 hd1cf
  rw [h2]
  have h3 := @ensureContainer_self_eq
      { current := aInsert (aErase st.current n) n d1,
        desired := aInsert st.desired n d1,
        ops := st.ops ++ removeOpsOf n r ++ createOpsOf n d, err := st.err }
      n d1 d1 he hlook1 hlookd rfl
  rw [h3]
  simp [he, hlookd]

theorem pass3Step_self_recreate_config {st : St} {n : String} {r d : hostConfiguredContainer}
    (he : st.err = none) (hr : aLookup st.current n = some r)
    (hd : aLookup st.desired n = some d) (hh : r.host = d.host) (hc : ¬r.config = d.config)
    (hcf : r.configFiles = d.configFiles)
    (hnd : (keysOf st.current).Nodup) (hdcf : (d.configFiles.map (·.1)).Nodup) :
    pass3Step st n = { st with
      current := aInsert (aErase st.current n) n
          { d with status := { exists_ := true, running := true } },
      desired := aInsert st.desired n { d with status := { exists_ := true, running := true } },
      ops := st.ops ++ removeOpsOf n r ++ createOpsOf n d } := by
  have h1 : ensureHost st n = st := ensureHost_self_eq he hr hd hh
  have h2 : ensureConfigured st n = st := ensureConfigured_self_synced he hr hd hcf hnd hdcf
  have hrec := recreate_shape hr hd
  set d1 : hostConfiguredContainer := { d with status := { exists_ := true, running := true } }
    with hd1
  have h3 : ensureContainer st n = { st with
      current := aInsert (aErase st.current n) n d1,
      desired := aInsert st.desired n d1,
      ops := st.ops ++ removeOpsOf n r ++ createOpsOf n d } := by
    simp only [ensureContainer, he, Option.isSome_none, Bool.false_eq_true, if_false,
      diffContainer_of_some hr hd]
    have hdiff : cmpDiff r.config d.config = "(diff)" := by simp [cmpDiff, hc]
    rw [hdiff]
    simp [hrec, he, aLookup_aInsert_self]
  unfold pass3Step
  rw [h1, h2, h3]
  simp [he, aLookup_aInsert_self]

theorem pass3_fold {L : List String} (hL : L.Nodup) {st : St}
    (hgood : AllGood st.current) (hwf : WfSt st)
    (hmem : ∀ n ∈ L, (aLookup st.current n).isSome)
    (hcfs : ∀ n r d, aLookup st.current n = some r → aLookup st.desired n = some d →
        r.configFiles = d.configFiles)
    (hsucc : (L.foldl pass3Step st).err = none) :
    st.err = none
    ∧ (∀ n, n ∉ L → aLookup (L.foldl pass3Step st).current n = aLookup st.current n)
    ∧ (∀ n, n ∉ L → aLookup (L.foldl pass3Step st).desired n = aLookup st.desired n)
    ∧ (∀ n ∈ L, ∃ r3 d3,
        aLookup (L.foldl pass3Step st).current n = some r3
        ∧ aLookup (L.foldl pass3Step st).desired n = some d3
        ∧ sameSpec r3 d3 ∧ r3.status.exists_ = true ∧ r3.status.running = true) := by
  induction L generalizing st with
  | nil =>
    refine ⟨by simpa using hsucc, fun n _ => rfl, fun n _ => rfl, fun n hn => by simp at hn⟩
  | cons m t ih =>
    simp only [List.foldl_cons] at hsucc ⊢
    have hem : (pass3Step st m).err = none :=
      foldl_err_none (fun st2 m2 h2 => pass3Step_latch m2 h2) hsucc
    have he : st.err = none := by
      by_cases hs : st.err.isSome
      · rw [pass3Step_latch m hs] at hem
        exact hem
      · exact Option.not_isSome_iff_eq_none.1 hs
    obtain ⟨r, hr⟩ := Option.isSome_iff_exists.1 (hmem m (by simp))
    cases hdm : aLookup st.desired m with
    | none =>
      rw [pass3Step_err_of_removed he hr hdm] at hem
      cases hem
    | some d =>
      have hcf : r.configFiles = d.configFiles := hcfs m r d hr hdm
      have hex : r.status.exists_ = true := (hgood m r hr).1
      have hrun : r.status.running = true := (hgood m r hr).2
      have hdcf : (d.configFiles.map (·.1)).Nodup := WfS_cf hwf.2 hdm
      have hnd : (keysOf st.current).Nodup := hwf.1.1
      -- characterize the step at m
      have hstep : ∃ r1 d1, aLookup (pass3Step st m).current m = some r1
          ∧ aLookup (pass3Step st m).desired m = some d1
          ∧ sameSpec r1 d1 ∧ r1.status.exists_ = true ∧ r1.status.running = true := by
        by_cases hh : r.host = d.host
        · by_cases hc : r.config = d.config
          · rw [pass3Step_self_noop he hr hdm hh hc hcf hnd hdcf]
            exact ⟨r, d, hr, hdm, ⟨hh, hc, hcf⟩, hex, hrun⟩
          · rw [pass3Step_self_recreate_config he hr hdm hh hc hcf hnd hdcf]
            exact ⟨{ d with status := { exists_ := true, running := true } },
              { d with status := { exists_ := true, running := true } },
              aLookup_aInsert_self _ _ _, aLookup_aInsert_self _ _ _,
              ⟨rfl, rfl, rfl⟩, rfl, rfl⟩
        · rw [pass3Step_self_recreate_host he hr hdm hh hnd hdcf]
          exact ⟨{ d with status := { exists_ := true, running := true } },
            { d with status := { exists_ := true, running := true } },
            aLookup_aInsert_self _ _ _, aLookup_aInsert_self _ _ _,
            ⟨rfl, rfl, rfl⟩, rfl, rfl⟩
      obtain ⟨r1, d1, hr1, hd1, hspec1, hex1, hrun1⟩ := hstep
      -- hypotheses for the tail fold
      have hgood1 : AllGood (pass3Step st m).current := by
        intro n rn hn
        by_cases hnm : n = m
        · subst hnm
          rw [hn] at hr1
          injection hr1 with hr1
          rw [hr1]
          exact ⟨hex1, hrun1⟩
        · rw [pass3Step_current_ne (Ne.symm hnm)] at hn
          exact hgood n rn hn
      have hwf1 : WfSt (pass3Step st m) := pass3Step_wf m hwf
      have hmem1 : ∀ n ∈ t, (aLookup (pass3Step st m).current n).isSome := by
        intro n hn
        by_cases hnm : n = m
        · subst hnm
          simp [hr1]
        · rw [pass3Step_current_ne (Ne.symm hnm)]
          exact hmem n (by simp [hn])
      have hcfs1 : ∀ n rn dn, aLookup (pass3Step st m).current n = some rn →
          aLookup (pass3Step st m).desired n = some dn → rn.configFiles = dn.configFiles := by
        intro n rn dn hcn hdn
        by_cases hnm : n = m
        · subst hnm
          rw [hcn] at hr1
          rw [hdn] at hd1
          injection hr1 with hr1
          injection hd1 with hd1
          rw [hr1, hd1]
          exact hspec1.2.2
        · rw [pass3Step_current_ne (Ne.symm hnm)] at hcn
          rw [pass3Step_desired_ne (Ne.symm hnm)] at hdn
          exact hcfs n rn dn hcn hdn
      have hmt : m ∉ t := (List.nodup_cons.1 hL).1
      obtain ⟨_, hfc, hfd, hfin⟩ := ih (List.nodup_cons.1 hL).2 hgood1 hwf1 hmem1 hcfs1 hsucc
      refine ⟨he, ?_, ?_, ?_⟩
      · intro n hn
        have hnm : n ≠ m := fun hc => hn (by simp [hc])
        have hnt : n ∉ t := fun hc => hn (by simp [hc])
        rw [hfc n hnt, pass3Step_current_ne (Ne.symm hnm)]
      · intro n hn
        have hnm : n ≠ m := fun hc => hn (by simp [hc])
        have hnt : n ∉ t := fun hc => hn (by simp [hc])
        rw [hfd n hnt, pass3Step_desired_ne (Ne.symm hnm)]
      · intro n hn
        rcases List.mem_cons.1 hn with hn | hn
        · subst hn
          refine ⟨r1, d1, ?_, ?_, hspec1, hex1, hrun1⟩
          · rw [hfc n hmt]
            exact hr1
          · rw [hfd n hmt]
            exact hd1
        · exact hfin n hn

theorem pass2_fold {L : List String} (hL : L.Nodup) {st : St}
    (he : st.err = none) (hgood : AllGood st.current) (hwf : WfSt st)
    (hsub : ∀ n ∈ L, (aLookup st.desired n).isSome)
    (hds : ∀ n ∈ L, ∀ d, aLookup st.desired n = some d → d.status.exists_ = false) :
    (L.foldl pass2Step st).err = none
    ∧ AllGood (L.foldl pass2Step st).current
    ∧ (∀ n, n ∉ L → aLookup (L.foldl pass2Step st).current n = aLookup st.current n)
    ∧ (∀ n, n ∉ L → aLookup (L.foldl pass2Step st).desired n = aLookup st.desired n)
    ∧ (∀ n ∈ L, ∃ r2 d2, aLookup (L.foldl pass2Step st).current n = some r2
        ∧ aLookup (L.foldl pass2Step st).desired n = some d2
        ∧ r2.configFiles = d2.configFiles
        ∧ r2.status.exists_ = true ∧ r2.status.running = true
        ∧ ∃ d0, aLookup st.desired n = some d0 ∧ sameSpec d2 d0) := by
  induction L generalizing st with
  | nil =>
    refine ⟨he, hgood, fun n _ => rfl, fun n _ => rfl, fun n hn => by simp at hn⟩
  | cons m t ih =>
    simp only [List.foldl_cons]
    obtain ⟨d, hdm⟩ := Option.isSome_iff_exists.1 (hsub m (by simp))
    have hstep : ∃ r1 d1, (pass2Step st m).err = none
        ∧ aLookup (pass2Step st m).current m = some r1
        ∧ aLookup (pass2Step st m).desired m = some d1
        ∧ r1.configFiles = d1.configFiles
        ∧ r1.status.exists_ = true ∧ r1.status.running = true
        ∧ sameSpec d1 d := by
      cases hr : aLookup st.current m with
      | some r =>
        have hex : r.status.exists_ = true := (hgood m r hr).1
        have hrun : r.status.running = true := (hgood m r hr).2
        rw [pass2Step_self_existing he hdm hr hex]
        exact ⟨{ r with configFiles := d.configFiles }, d,
          he, aLookup_aInsert_self _ _ _, hdm, rfl, hex, hrun, rfl, rfl, rfl⟩
      | none =>
        have hx : d.status.exists_ = false := hds m (by simp) d hdm
        rw [pass2Step_self_create he hdm hr hx]
        exact ⟨{ d with status := { exists_ := true, running := true } },
          { d with status := { exists_ := true, running := true } },
          he, aLookup_aInsert_self _ _ _, aLookup_aInsert_self _ _ _, rfl, rfl, rfl,
          rfl, rfl, rfl⟩
    obtain ⟨r1, d1, he1, hr1, hd1, hcf1, hex1, hrun1, hspec1⟩ := hstep
    have hgood1 : AllGood (pass2Step st m).current := by
      intro n rn hn
      by_cases hnm : n = m
      · subst hnm
        rw [hn] at hr1
        injection hr1 with hr1
        rw [hr1]
        exact ⟨hex1, hrun1⟩
      · rw [pass2Step_current_ne (Ne.symm hnm)] at hn
        exact hgood n rn hn
    have hwf1 : WfSt (pass2Step st m) := pass2Step_wf m hwf
    have hsub1 : ∀ n ∈ t, (aLookup (pass2Step st m).desired n).isSome := by
      intro n hn
      have hnm : n ≠ m := fun hc => (List.nodup_cons.1 hL).1 (hc ▸ hn)
      rw [pass2Step_desired_ne (Ne.symm hnm)]
      exact hsub n (by simp [hn])
    have hds1 : ∀ n ∈ t, ∀ dn, aLookup (pass2Step st m).desired n = some dn →
        dn.status.exists_ = false := by
      intro n hn dn hdn
      have hnm : n ≠ m := fun hc => (List.nodup_cons.1 hL).1 (hc ▸ hn)
      rw [pass2Step_desired_ne (Ne.symm hnm)] at hdn
      exact hds n (by simp [hn]) dn hdn
    have hmt : m ∉ t := (List.nodup_cons.1 hL).1
    obtain ⟨hfe, hfg, hfc, hfd, hfin⟩ := ih (List.nodup_cons.1 hL).2 he1 hgood1 hwf1 hsub1 hds1
    refine ⟨hfe, hfg, ?_, ?_, ?_⟩
    · intro n hn
      have hnm : n ≠ m := fun hc => hn (by simp [hc])
      have hnt : n ∉ t := fun hc => hn (by simp [hc])
      rw [hfc n hnt, pass2Step_current_ne (Ne.symm hnm)]
    · intro n hn
      have hnm : n ≠ m := fun hc => hn (by simp [hc])
      have hnt : n ∉ t := fun hc => hn (by simp [hc])
      rw [hfd n hnt, pass2Step_desired_ne (Ne.symm hnm)]
    · intro n hn
      rcases List.mem_cons.1 hn with hn | hn
      · subst hn
        refine ⟨r1, d1, ?_, ?_, hcf1, hex1, hrun1, d, hdm, hspec1⟩
        · rw [hfc n hmt]
          exact hr1
        · rw [hfd n hmt]
          exact hd1
      · obtain ⟨r2, d2, ha, hb, hc2, hd2, he2, d0, hd0, hs0⟩ := hfin n hn
        have hnm : n ≠ m := fun hc => hmt (hc ▸ hn)
        rw [pass2Step_desired_ne (Ne.symm hnm)] at hd0
        exact ⟨r2, d2, ha, hb, hc2, hd2, he2, d0, hd0, hs0⟩

/-! ### Convergence and idempotence of Execute -/

/-- The reconciled states agree: same name set, and per name the current entry
matches the desired spec and is observed existing and running. -/
def Conv (cur des : containersState) : Prop :=
  (∀ n, (aLookup cur n).isSome ↔ (aLookup des n).isSome)
  ∧ ∀ n r d, aLookup cur n = some r → aLookup des n = some d →
      sameSpec r d ∧ r.status.exists_ = true ∧ r.status.running = true

/-- Pass 1 of Execute as a function of the whole state. -/
def pass1Run (st : St) : St := (keysOf st.current).foldl pass1Step st

/-- Pass 2 of Execute as a function of the whole state. -/
def pass2Run (st : St) : St := (keysOf st.desired).foldl pass2Step st

/-- Pass 3 of Execute as a function of the whole state. -/
def pass3Run (st : St) : St := (keysOf st.current).foldl pass3Step st

theorem execute_eq (cur des : containersState) :
    execute cur des
      = pass3Run (pass2Run (pass1Run
          { current := cur, desired := des, ops := [], err := none })) := rfl

theorem foldl_pres_err {f : St → String → St}
    (hf : ∀ st m, (f st m).err = st.err) (L : List String) (st : St) :
    (L.foldl f st).err = st.err := by
  induction L generalizing st with
  | nil => rfl
  | cons m t ih =>
    simp only [List.foldl_cons]
    rw [ih, hf]

theorem err_none_of_step {f : St → String → St}
    (hl : ∀ (st : St) (m : String), st.err.isSome → f st m = st) {st : St} {m : String}
    (h : (f st m).err = none) : st.err = none := by
  by_cases hs : st.err.isSome
  · rw [hl st m hs] at h
    exact h
  · exact Option.not_isSome_iff_eq_none.1 hs

/-- Successful Execute converges the state (provided no desired entry carries a
status that already marks the container as existing): every current name
matches its desired entry and every desired name is present in current. -/
theorem pipeline_converges {st0 : St} (he0 : st0.err = none) (hwf : WfSt st0)
    (hds : ∀ p ∈ st0.desired, p.2.status.exists_ = false)
    (hok : (pass3Run (pass2Run (pass1Run st0))).err = none) :
    Conv (pass3Run (pass2Run (pass1Run st0))).current
      (pass3Run (pass2Run (pass1Run st0))).desired
    ∧ WfSt (pass3Run (pass2Run (pass1Run st0))) := by
  have h1 : (pass1Run st0).err = none ∧ (pass1Run st0).desired = st0.desired
      ∧ AllGood (pass1Run st0).current := by
    unfold pass1Run
    exact @pass1_fold_allGood (keysOf st0.current) st0 he0
      (fun n r1 h hn => absurd (mem_keysOf_of_aLookup h) hn)
  obtain ⟨he1, hd1, hg1⟩ := h1
  have hwf1 : WfSt (pass1Run st0) := by
    unfold pass1Run
    exact foldl_wf (fun st m => pass1Step_wf m) _ _ hwf
  have hnd2 : (keysOf (pass1Run st0).desired).Nodup := by
    rw [hd1]
    exact hwf.2.1
  have hsub2 : ∀ n ∈ keysOf (pass1Run st0).desired,
      (aLookup (pass1Run st0).desired n).isSome :=
    fun n hn => (aLookup_isSome_iff _ _).2 hn
  have hds2 : ∀ n ∈ keysOf (pass1Run st0).desired, ∀ d,
      aLookup (pass1Run st0).desired n = some d → d.status.exists_ = false := by
    intro n _ d hd
    rw [hd1] at hd
    exact hds (n, d) (aLookup_mem hd)
  have h2 : (pass2Run (pass1Run st0)).err = none
      ∧ AllGood (pass2Run (pass1Run st0)).current
      ∧ (∀ n, n ∉ keysOf (pass1Run st0).desired →
          aLookup (pass2Run (pass1Run st0)).current n = aLookup (pass1Run st0).current n)
      ∧ (∀ n, n ∉ keysOf (pass1Run st0).desired →
          aLookup (pass2Run (pass1Run st0)).desired n = aLookup (pass1Run st0).desired n)
      ∧ (∀ n ∈ keysOf (pass1Run st0).desired, ∃ r2 d2,
          aLookup (pass2Run (pass1Run st0)).current n = some r2
          ∧ aLookup (pass2Run (pass1Run st0)).desired n = some d2
          ∧ r2.configFiles = d2.configFiles
          ∧ r2.status.exists_ = true ∧ r2.status.running = true
          ∧ ∃ d0, aLookup (pass1Run st0).desired n = some d0 ∧ sameSpec d2 d0) := by
    unfold pass2Run
    exact @pass2_fold (keysOf (pass1Run st0).desired) hnd2 (pass1Run st0) he1 hg1 hwf1
      hsub2 hds2
  obtain ⟨he2, hg2, hfc2, hfd2, hper2⟩ := h2
  have hwf2 : WfSt (pass2Run (pass1Run st0)) := by
    unfold pass2Run
    exact foldl_wf (fun st m => pass2Step_wf m) _ _ hwf1
  have hcfs3 : ∀ n r d, aLookup (pass2Run (pass1Run st0)).current n = some r →
      aLookup (pass2Run (pass1Run st0)).desired n = some d →
      r.configFiles = d.configFiles := by
    intro n r d hrn hdn
    by_cases hmem : n ∈ keysOf (pass1Run st0).desired
    · obtain ⟨r2, d2, ha, hb, hcf, _⟩ := hper2 n hmem
      rw [hrn] at ha
      rw [hdn] at hb
      injection ha with ha
      injection hb with hb
      rw [← ha, ← hb] at hcf
      exact hcf
    · rw [hfd2 n hmem] at hdn
      exact absurd (mem_keysOf_of_aLookup hdn) hmem
  have hok3 : ((keysOf (pass2Run (pass1Run st0)).current).foldl pass3Step
      (pass2Run (pass1Run st0))).err = none := hok
  have h3 := @pass3_fold (keysOf (pass2Run (pass1Run st0)).current) hwf2.1.1
    (pass2Run (pass1Run st0)) hg2 hwf2
    (fun n hn => (aLookup_isSome_iff _ _).2 hn) hcfs3 hok3
  obtain ⟨_, hfc3, hfd3, hper3⟩ := h3
  have hP3 : pass3Run (pass2Run (pass1Run st0))
      = (keysOf (pass2Run (pass1Run st0)).current).foldl pass3Step
          (pass2Run (pass1Run st0)) := rfl
  have hwf3 : WfSt (pass3Run (pass2Run (pass1Run st0))) := by
    rw [hP3]
    exact foldl_wf (fun st m => pass3Step_wf m) _ _ hwf2
  rw [hP3]
  refine ⟨⟨?_, ?_⟩, ?_⟩
  · intro n
    constructor
    · intro hsome
      by_cases hn3 : n ∈ keysOf (pass2Run (pass1Run st0)).current
      · obtain ⟨r3, d3, _, hb, _⟩ := hper3 n hn3
        simp [hb]
      · rw [hfc3 n hn3] at hsome
        exact absurd ((aLookup_isSome_iff _ _).1 hsome) hn3
    · intro hsome
      have hkd3 : keysOf ((keysOf (pass2Run (pass1Run st0)).current).foldl pass3Step
          (pass2Run (pass1Run st0))).desired = keysOf (pass2Run (pass1Run st0)).desired :=
        foldl_keysOf_desired pass3Step_keysOf_desired _ _
      have hkd2 : keysOf (pass2Run (pass1Run st0)).desired
          = keysOf (pass1Run st0).desired := by
        unfold pass2Run
        exact foldl_keysOf_desired pass2Step_keysOf_desired _ _
      have hmem : n ∈ keysOf (pass1Run st0).desired := by
        have := (aLookup_isSome_iff _ _).1 hsome
        rw [hkd3, hkd2] at this
        exact this
      obtain ⟨r2, d2, ha, _⟩ := hper2 n hmem
      have hn3 : n ∈ keysOf (pass2Run (pass1Run st0)).current := mem_keysOf_of_aLookup ha
      obtain ⟨r3, d3, hc3, _⟩ := hper3 n hn3
      simp [hc3]
  · intro n r d hrn hdn
    have hn3 : n ∈ keysOf (pass2Run (pass1Run st0)).current := by
      by_cases hn3 : n ∈ keysOf (pass2Run (pass1Run st0)).current
      · exact hn3
      · rw [hfc3 n hn3] at hrn
        exact absurd (mem_keysOf_of_aLookup hrn) hn3
    obtain ⟨r3, d3, ha, hb, hs3, hex3, hrun3⟩ := hper3 n hn3
    rw [hrn] at ha
    rw [hdn] at hb
    injection ha with ha
    injection hb with hb
    rw [ha, hb]
    exact ⟨hs3, hex3, hrun3⟩
  · exact hwf3

theorem foldl_id {f : St → String → St} {L : List String} {st : St}
    (hf : ∀ m ∈ L, f st m = st) : L.foldl f st = st := by
  induction L with
  | nil => rfl
  | cons m t ih =>
    simp only [List.foldl_cons, hf m (by simp)]
    exact ih (fun m2 hm2 => hf m2 (by simp [hm2]))

theorem pass2Step_id {st : St} {n : String} {r d : hostConfiguredContainer}
    (he : st.err = none) (hd : aLookup st.desired n = some d)
    (hr : aLookup st.current n = some r) (hex : r.status.exists_ = true)
    (hcf : r.configFiles = d.configFiles)
    (hnd : (keysOf st.current).Nodup) (hdcf : (d.configFiles.map (·.1)).Nodup) :
    pass2Step st n = st := by
  unfold pass2Step
  rw [ensureConfigured_self_synced he hr hd hcf hnd hdcf]
  simp [ensureExists, he, hr, hex]

/-- On a converged well-formed state, all three passes are the identity. -/
theorem pipeline_id {st0 : St} (he0 : st0.err = none) (hwf : WfSt st0)
    (hconv : Conv st0.current st0.desired) :
    pass3Run (pass2Run (pass1Run st0)) = st0 := by
  have h1 : pass1Run st0 = st0 := by
    unfold pass1Run
    apply foldl_id
    intro m hm
    obtain ⟨r, hr⟩ := Option.isSome_iff_exists.1 ((aLookup_isSome_iff _ _).2 hm)
    obtain ⟨d, hd⟩ := Option.isSome_iff_exists.1 ((hconv.1 m).1 (by simp [hr]))
    obtain ⟨_, hex, hrun⟩ := hconv.2 m r d hr hd
    exact pass1Step_self_good he0 hr hex hrun
  rw [h1]
  have h2 : pass2Run st0 = st0 := by
    unfold pass2Run
    apply foldl_id
    intro m hm
    obtain ⟨d, hd⟩ := Option.isSome_iff_exists.1 ((aLookup_isSome_iff _ _).2 hm)
    obtain ⟨r, hr⟩ := Option.isSome_iff_exists.1 ((hconv.1 m).2 (by simp [hd]))
    obtain ⟨hs, hex, _⟩ := hconv.2 m r d hr hd
    exact pass2Step_id he0 hd hr hex hs.2.2 hwf.1.1 (WfS_cf hwf.2 hd)
  rw [h2]
  unfold pass3Run
  apply foldl_id
  intro m hm
  obtain ⟨r, hr⟩ := Option.isSome_iff_exists.1 ((aLookup_isSome_iff _ _).2 hm)
  obtain ⟨d, hd⟩ := Option.isSome_iff_exists.1 ((hconv.1 m).1 (by simp [hr]))
  obtain ⟨hs, _, _⟩ := hconv.2 m r d hr hd
  exact pass3Step_self_noop he0 hr hd hs.1 hs.2.1 hs.2.2 hwf.1.1 (WfS_cf hwf.2 hd)

theorem execute_converges {cur des : containersState}
    (hwfc : WfS cur) (hwfd : WfS des)
    (hds : ∀ p ∈ des, p.2.status.exists_ = false)
    (hok : (execute cur des).err = none) :
    Conv (execute cur des).current (execute cur des).desired
    ∧ WfSt (execute cur des) := by
  rw [execute_eq] at hok ⊢
  exact pipeline_converges rfl ⟨hwfc, hwfd⟩ hds hok

/-- C2 amended: Execute is idempotent for every configuration whose desired
entries do not carry a status already marking the container as existing
(container status is runtime-observed, not user input): after a successful
Execute, running Execute again issues no operation, succeeds, and leaves both
the current state (the exported previous state, by the aliasing of
CheckCurrentState) and the desired state unchanged. -/
theorem C2_execute_idempotent (cur des : containersState)
    (hwfc : WfS cur) (hwfd : WfS des)
    (hds : ∀ p ∈ des, p.2.status.exists_ = false)
    (hok : (execute cur des).err = none) :
    execute (execute cur des).current (execute cur des).desired
      = { current := (execute cur des).current, desired := (execute cur des).desired,
          ops := [], err := none } := by
  obtain ⟨hconv, hwf3⟩ := execute_converges hwfc hwfd hds hok
  rw [execute_eq (execute cur des).current (execute cur des).desired]
  exact pipeline_id rfl ⟨hwf3.1, hwf3.2⟩ hconv

def c2DesHcc : hostConfiguredContainer :=
  { host := "h1", config := "c1", status := { exists_ := false, running := false },
    configFiles := [("/c.yaml", "x")] }

theorem C2_execute_idempotent_witness :
    execute (execute [] [("a", c2DesHcc)]).current (execute [] [("a", c2DesHcc)]).desired
      = { current := (execute [] [("a", c2DesHcc)]).current,
          desired := (execute [] [("a", c2DesHcc)]).desired, ops := [], err := none } :=
  C2_execute_idempotent [] [("a", c2DesHcc)] (by decide) (by decide) (by decide) (by decide)

/-- C2 counterexample: a desired entry whose user-supplied status fakes an
existing container makes the first Execute succeed without creating anything,
and the second Execute then issues a start operation and changes the exported
state; the unrestricted idempotence claim is false on the code. -/
def c2FakeHcc : hostConfiguredContainer :=
  { host := "h1", config := "c1", status := { exists_ := true, running := false },
    configFiles := [] }

theorem C2_second_run_not_noop :
    (execute [] [("a", c2FakeHcc)]).err = none
    ∧ (execute (execute [] [("a", c2FakeHcc)]).current
        (execute [] [("a", c2FakeHcc)]).desired).ops = [Op.start "a"]
    ∧ (execute (execute [] [("a", c2FakeHcc)]).current
          (execute [] [("a", c2FakeHcc)]).desired).current
        ≠ (execute [] [("a", c2FakeHcc)]).current := by
  decide

/-! ### Per-name tracking through the pipeline -/

def initSt (cur des : containersState) : St :=
  { current := cur, desired := des, ops := [], err := none }

theorem initSt_current (cur des : containersState) : (initSt cur des).current = cur := rfl

theorem initSt_desired (cur des : containersState) : (initSt cur des).desired = des := rfl

theorem execute_eq_init (cur des : containersState) :
    execute cur des = pass3Run (pass2Run (pass1Run (initSt cur des))) := rfl

theorem foldl_pres_desired {f : St → String → St}
    (hf : ∀ st m, (f st m).desired = st.desired) (L : List String) (st : St) :
    (L.foldl f st).desired = st.desired := by
  induction L generalizing st with
  | nil => rfl
  | cons m t ih =>
    simp only [List.foldl_cons]
    rw [ih, hf]

theorem nodup_split {L : List String} {n : String} (hn : n ∈ L) (hnd : L.Nodup) :
    ∃ A B, L = A ++ n :: B ∧ n ∉ A ∧ n ∉ B := by
  obtain ⟨A, B, rfl⟩ := List.append_of_mem hn
  have h := List.nodup_append.1 hnd
  refine ⟨A, B, rfl, ?_, ?_⟩
  · intro hA
    exact (h.2.2 hA) (by simp)
  · exact (List.nodup_cons.1 h.2.1).1

theorem filter_name_configureOps (n : String) (d : hostConfiguredContainer)
    (files : List String) :
    (configureOps n d files).filter (fun o => o.name == n) = configureOps n d files := by
  rw [List.filter_eq_self]
  intro o ho
  simp only [configureOps, List.mem_map] at ho
  obtain ⟨p, _, hp⟩ := ho
  rw [← hp]
  simp [Op.name]

theorem filter_rec_configureOps (n : String) (d : hostConfiguredContainer)
    (files : List String) :
    (configureOps n d files).filter (fun o => o == Op.remove n || o == Op.create n) = [] := by
  rw [List.filter_eq_nil_iff]
  intro o ho
  simp only [configureOps, List.mem_map] at ho
  obtain ⟨p, _, hp⟩ := ho
  rw [← hp]
  simp

theorem filter_rec_removeOps (n : String) (r : hostConfiguredContainer) :
    (removeOpsOf n r).filter (fun o => o == Op.remove n || o == Op.create n)
      = [Op.remove n] := by
  unfold removeOpsOf
  rw [List.filter_append, List.filter_append]
  have h1 : (if r.status.running then [Op.stop n] else []).filter
      (fun o => o == Op.remove n || o == Op.create n) = [] := by
    by_cases hrun : r.status.running = true <;> simp [hrun]
  have h2 : ([Op.remove n]).filter (fun o => o == Op.remove n || o == Op.create n)
      = [Op.remove n] := by simp
  have h3 : (r.configFiles.map (fun pc => Op.deleteFile n pc.1)).filter
      (fun o => o == Op.remove n || o == Op.create n) = [] := by
    rw [List.filter_eq_nil_iff]
    intro o ho
    simp only [List.mem_map] at ho
    obtain ⟨p, _, hp⟩ := ho
    rw [← hp]
    simp
  rw [h1, h2, h3]
  simp

theorem filter_rec_createOps (n : String) (d : hostConfiguredContainer) :
    (createOpsOf n d).filter (fun o => o == Op.remove n || o == Op.create n)
      = [Op.create n] := by
  unfold createOpsOf
  rw [List.filter_append]
  have h1 : (d.configFiles.map (fun pc => Op.writeFile n pc.1 pc.2)).filter
      (fun o => o == Op.remove n || o == Op.create n) = [] := by
    rw [List.filter_eq_nil_iff]
    intro o ho
    simp only [List.mem_map] at ho
    obtain ⟨p, _, hp⟩ := ho
    rw [← hp]
    simp
  have h2 : ([Op.create n, Op.start n]).filter
      (fun o => o == Op.remove n || o == Op.create n) = [Op.create n] := by simp
  rw [h1, h2]
  simp

/-- Track a single name through passes 1 and 2: with an existing, running
current entry, pass 1 leaves it alone and pass 2 only syncs its configFiles to
desired, writing exactly the drifted files. -/
theorem track_to_pass3 (cur des : containersState) {n : String}
    {r d : hostConfiguredContainer}
    (hwfc : WfS cur) (hwfd : WfS des)
    (hr : aLookup cur n = some r) (hd : aLookup des n = some d)
    (hex : r.status.exists_ = true) (hrun : r.status.running = true)
    (hok2 : (pass2Run (pass1Run (initSt cur des))).err = none)
    {q : Op → Bool} (hq : ∀ o, q o = true → o.name = n) :
    aLookup (pass2Run (pass1Run (initSt cur des))).current n
      = some { r with configFiles := d.configFiles }
    ∧ aLookup (pass2Run (pass1Run (initSt cur des))).desired n = some d
    ∧ (pass2Run (pass1Run (initSt cur des))).ops.filter q
      = (configureOps n d (filesToUpdate d (some r))).filter q := by
  -- pass 1
  obtain ⟨A1, B1, hsp1, hnA1, hnB1⟩ := nodup_split (mem_keysOf_of_aLookup hr) hwfc.1
  have hL1 : keysOf (initSt cur des).current = A1 ++ n :: B1 := by
    rw [initSt_current, hsp1]
  have hp1 : pass1Run (initSt cur des)
      = B1.foldl pass1Step (pass1Step (A1.foldl pass1Step (initSt cur des)) n) := by
    unfold pass1Run
    rw [hL1, List.foldl_append, List.foldl_cons]
  have heA1 : (A1.foldl pass1Step (initSt cur des)).err = none :=
    foldl_pres_err pass1Step_err _ _
  have hcA1 : aLookup (A1.foldl pass1Step (initSt cur des)).current n = some r := by
    rw [foldl_current_ne (fun st m hm => pass1Step_current_ne hm) hnA1]
    exact hr
  have hstep1 : pass1Step (A1.foldl pass1Step (initSt cur des)) n
      = A1.foldl pass1Step (initSt cur des) :=
    pass1Step_self_good heA1 hcA1 hex hrun
  have hc1 : aLookup (pass1Run (initSt cur des)).current n = some r := by
    rw [hp1, hstep1, foldl_current_ne (fun st m hm => pass1Step_current_ne hm) hnB1]
    exact hcA1
  have hd1 : (pass1Run (initSt cur des)).desired = des := by
    unfold pass1Run
    rw [foldl_pres_desired pass1Step_desired, initSt_desired]
  have he1 : (pass1Run (initSt cur des)).err = none := by
    unfold pass1Run
    rw [foldl_pres_err pass1Step_err]
    rfl
  have hops1 : (pass1Run (initSt cur des)).ops.filter q = [] := by
    rw [hp1, foldl_filter_ops hq (fun st m _ => pass1Step_opsExt st m) hnB1, hstep1,
      foldl_filter_ops hq (fun st m _ => pass1Step_opsExt st m) hnA1]
    rfl
  -- pass 2
  obtain ⟨A2, B2, hsp2, hnA2, hnB2⟩ := nodup_split (mem_keysOf_of_aLookup hd) hwfd.1
  have hL2 : keysOf (pass1Run (initSt cur des)).desired = A2 ++ n :: B2 := by
    rw [hd1, hsp2]
  have hp2 : pass2Run (pass1Run (initSt cur des))
      = B2.foldl pass2Step
          (pass2Step (A2.foldl pass2Step (pass1Run (initSt cur des))) n) := by
    unfold pass2Run
    rw [hL2, List.foldl_append, List.foldl_cons]
  have hcA2 : aLookup (A2.foldl pass2Step (pass1Run (initSt cur des))).current n = some r := by
    rw [foldl_current_ne (fun st m hm => pass2Step_current_ne hm) hnA2]
    exact hc1
  have hdA2 : aLookup (A2.foldl pass2Step (pass1Run (initSt cur des))).desired n = some d := by
    rw [foldl_desired_ne (fun st m hm => pass2Step_desired_ne hm) hnA2, hd1]
    exact hd
  have heA2 : (A2.foldl pass2Step (pass1Run (initSt cur des))).err = none := by
    have hs : (pass2Step (A2.foldl pass2Step (pass1Run (initSt cur des))) n).err = none := by
      apply foldl_err_none (fun st2 m2 h2 => pass2Step_latch m2 h2)
      rw [← hp2]
      exact hok2
    exact err_none_of_step (fun st2 m2 h2 => pass2Step_latch m2 h2) hs
  have hopsA2 : (A2.foldl pass2Step (pass1Run (initSt cur des))).ops.filter q = [] := by
    rw [foldl_filter_ops hq (fun st m _ => pass2Step_opsExt st m) hnA2]
    exact hops1
  have hstep2 := pass2Step_self_existing heA2 hdA2 hcA2 hex
  refine ⟨?_, ?_, ?_⟩
  · rw [hp2, foldl_current_ne (fun st m hm => pass2Step_current_ne hm) hnB2, hstep2]
    exact aLookup_aInsert_self _ _ _
  · rw [hp2, foldl_desired_ne (fun st m hm => pass2Step_desired_ne hm) hnB2, hstep2]
    exact hdA2
  · rw [hp2, foldl_filter_ops hq (fun st m _ => pass2Step_opsExt st m) hnB2, hstep2]
    simp only [List.filter_append, hopsA2, List.nil_append]

/-- Track a single name through pass 3, given the step's behavior at that
name; all other names leave its entry and its filtered trace alone. -/
theorem track_pass3 {st2 : St} {n : String} (resC resD : Option hostConfiguredContainer)
    (extra : List Op) {q : Op → Bool} (hq : ∀ o, q o = true → o.name = n)
    (hwf2 : WfSt st2) (hok : (pass3Run st2).err = none)
    (hmem : n ∈ keysOf st2.current)
    (hstep : ∀ st : St, st.err = none →
        aLookup st.current n = aLookup st2.current n →
        aLookup st.desired n = aLookup st2.desired n →
        (keysOf st.current).Nodup → WfS st.desired →
        aLookup (pass3Step st n).current n = resC
        ∧ aLookup (pass3Step st n).desired n = resD
        ∧ (pass3Step st n).ops.filter q = st.ops.filter q ++ extra) :
    aLookup (pass3Run st2).current n = resC
    ∧ aLookup (pass3Run st2).desired n = resD
    ∧ (pass3Run st2).ops.filter q = st2.ops.filter q ++ extra := by
  obtain ⟨A, B, hsp, hnA, hnB⟩ := nodup_split hmem hwf2.1.1
  have hp3 : pass3Run st2 = B.foldl pass3Step (pass3Step (A.foldl pass3Step st2) n) := by
    unfold pass3Run
    rw [hsp, List.foldl_append, List.foldl_cons]
  have heA : (A.foldl pass3Step st2).err = none := by
    have hs : (pass3Step (A.foldl pass3Step st2) n).err = none := by
      apply foldl_err_none (fun st3 m3 h3 => pass3Step_latch m3 h3)
      rw [← hp3]
      exact hok
    exact err_none_of_step (fun st3 m3 h3 => pass3Step_latch m3 h3) hs
  have hcA : aLookup (A.foldl pass3Step st2).current n = aLookup st2.current n :=
    foldl_current_ne (fun st m hm => pass3Step_current_ne hm) hnA _
  have hdA : aLookup (A.foldl pass3Step st2).desired n = aLookup st2.desired n :=
    foldl_desired_ne (fun st m hm => pass3Step_desired_ne hm) hnA _
  have hwfA : WfSt (A.foldl pass3Step st2) := foldl_wf (fun st m => pass3Step_wf m) _ _ hwf2
  have hopsA : (A.foldl pass3Step st2).ops.filter q = st2.ops.filter q :=
    foldl_filter_ops hq (fun st m _ => pass3Step_opsExt st m) hnA _
  obtain ⟨hrc, hrd, hrops⟩ := hstep (A.foldl pass3Step st2) heA hcA hdA hwfA.1.1 hwfA.2
  refine ⟨?_, ?_, ?_⟩
  · rw [hp3, foldl_current_ne (fun st m hm => pass3Step_current_ne hm) hnB]
    exact hrc
  · rw [hp3, foldl_desired_ne (fun st m hm => pass3Step_desired_ne hm) hnB]
    exact hrd
  · rw [hp3, foldl_filter_ops hq (fun st m _ => pass3Step_opsExt st m) hnB, hrops, hopsA]

/-- C5: for a name present in both states whose host and container config
agree (and whose container is observed existing and running), a successful
Execute issues for that name exactly the write of each drifted config file:
no stop, remove, create, or start operation, and the current entry changes
only in its configFiles, which are synced to desired. -/
theorem C5_file_drift_writes_only (cur des : containersState) (n : String)
    (r d : hostConfiguredContainer)
    (hwfc : WfS cur) (hwfd : WfS des)
    (hr : aLookup cur n = some r) (hd : aLookup des n = some d)
    (hex : r.status.exists_ = true) (hrun : r.status.running = true)
    (hhost : r.host = d.host) (hcfg : r.config = d.config)
    (hok : (execute cur des).err = none) :
    (execute cur des).ops.filter (fun o => o.name == n)
      = configureOps n d (filesToUpdate d (some r))
    ∧ aLookup (execute cur des).current n = some { r with configFiles := d.configFiles } := by
  have hq : ∀ o : Op, (o.name == n) = true → o.name = n := fun o ho => by simpa using ho
  rw [execute_eq_init] at hok ⊢
  have hok2 : (pass2Run (pass1Run (initSt cur des))).err = none := by
    apply foldl_err_none (fun st3 m3 h3 => pass3Step_latch m3 h3)
    exact hok
  obtain ⟨hc2, hd2, hops2⟩ := track_to_pass3 cur des hwfc hwfd hr hd hex hrun hok2 hq
  have hwf2 : WfSt (pass2Run (pass1Run (initSt cur des))) := by
    unfold pass2Run pass1Run
    exact foldl_wf (fun st m => pass2Step_wf m) _ _
      (foldl_wf (fun st m => pass1Step_wf m) _ _ ⟨hwfc, hwfd⟩)
  have htrack := track_pass3 (some { r with configFiles := d.configFiles }) (some d) []
    hq hwf2 hok (mem_keysOf_of_aLookup hc2) ?hstep
  case hstep =>
    intro st he hcur hdes hnd hwfdes
    rw [hc2] at hcur
    rw [hd2] at hdes
    have hnoop : pass3Step st n = st :=
      pass3Step_self_noop he hcur hdes hhost hcfg rfl hnd (WfS_cf hwfdes hdes)
    rw [hnoop]
    exact ⟨hcur, hdes, by rw [List.append_nil]⟩
  obtain ⟨hfc, hfd, hfops⟩ := htrack
  refine ⟨?_, hfc⟩
  rw [hfops, hops2, List.append_nil, filter_name_configureOps]

/-- C4: for a name present in both states whose host and container config both
differ (and whose container is observed existing and running), a successful
Execute performs exactly one recreate for that name: the filtered trace is one
RemoveContainer followed by one CreateAndStart, and the desired HCC with the
freshly observed status is installed into the current state, so ensureContainer
finds no drift and no second recreate happens. -/
theorem C4_host_config_drift_recreates_once (cur des : containersState) (n : String)
    (r d : hostConfiguredContainer)
    (hwfc : WfS cur) (hwfd : WfS des)
    (hr : aLookup cur n = some r) (hd : aLookup des n = some d)
    (hex : r.status.exists_ = true) (hrun : r.status.running = true)
    (hhost : ¬r.host = d.host) (hcfg : ¬r.config = d.config)
    (hok : (execute cur des).err = none) :
    (execute cur des).ops.filter (fun o => o == Op.remove n || o == Op.create n)
      = [Op.remove n, Op.create n]
    ∧ aLookup (execute cur des).current n
      = some { d with status := { exists_ := true, running := true } } := by
  have hq : ∀ o : Op, (o == Op.remove n || o == Op.create n) = true → o.name = n := by
    intro o ho
    simp only [Bool.or_eq_true, beq_iff_eq] at ho
    rcases ho with ho | ho <;> rw [ho] <;> rfl
  rw [execute_eq_init] at hok ⊢
  have hok2 : (pass2Run (pass1Run (initSt cur des))).err = none := by
    apply foldl_err_none (fun st3 m3 h3 => pass3Step_latch m3 h3)
    exact hok
  obtain ⟨hc2, hd2, hops2⟩ := track_to_pass3 cur des hwfc hwfd hr hd hex hrun hok2 hq
  have hwf2 : WfSt (pass2Run (pass1Run (initSt cur des))) := by
    unfold pass2Run pass1Run
    exact foldl_wf (fun st m => pass2Step_wf m) _ _
      (foldl_wf (fun st m => pass1Step_wf m) _ _ ⟨hwfc, hwfd⟩)
  have htrack := track_pass3
    (some { d with status := { exists_ := true, running := true } })
    (some { d with status := { exists_ := true, running := true } })
    [Op.remove n, Op.create n]
    hq hwf2 hok (mem_keysOf_of_aLookup hc2) ?hstep
  case hstep =>
    intro st he hcur hdes hnd hwfdes
    rw [hc2] at hcur
    rw [hd2] at hdes
    have hrec := pass3Step_self_recreate_host he hcur hdes hhost hnd (WfS_cf hwfdes hdes)
    rw [hrec]
    refine ⟨aLookup_aInsert_self _ _ _, aLookup_aInsert_self _ _ _, ?_⟩
    simp only [List.filter_append, filter_rec_removeOps, filter_rec_createOps]
    simp
  obtain ⟨hfc, hfd, hfops⟩ := htrack
  refine ⟨?_, hfc⟩
  rw [hfops, hops2, filter_rec_configureOps]
  rfl

def c4CurHcc : hostConfiguredContainer :=
  { host := "h1", config := "c1", status := { exists_ := true, running := true },
    configFiles := [("/f.yaml", "x")] }

def c4DesHcc : hostConfiguredContainer :=
  { host := "h2", config := "c2", status := { exists_ := false, running := false },
    configFiles := [("/f.yaml", "y")] }

theorem C4_host_config_drift_recreates_once_witness :
    (execute [("a", c4CurHcc)] [("a", c4DesHcc)]).ops.filter
        (fun o => o == Op.remove "a" || o == Op.create "a")
      = [Op.remove "a", Op.create "a"]
    ∧ aLookup (execute [("a", c4CurHcc)] [("a", c4DesHcc)]).current "a"
      = some { c4DesHcc with status := { exists_ := true, running := true } } :=
  C4_host_config_drift_recreates_once [("a", c4CurHcc)] [("a", c4DesHcc)] "a"
    c4CurHcc c4DesHcc (by decide) (by decide) (by decide) (by decide) (by decide)
    (by decide) (by decide) (by decide) (by decide)

def c5CurHcc : hostConfiguredContainer :=
  { host := "h1", config := "c1", status := { exists_ := true, running := true },
    configFiles := [("/f.yaml", "x")] }

def c5DesHcc : hostConfiguredContainer :=
  { host := "h1", config := "c1", status := { exists_ := false, running := false },
    configFiles := [("/f.yaml", "y")] }

theorem C5_file_drift_writes_only_witness :
    (execute [("a", c5CurHcc)] [("a", c5DesHcc)]).ops.filter (fun o => o.name == "a")
      = configureOps "a" c5DesHcc (filesToUpdate c5DesHcc (some c5CurHcc))
    ∧ aLookup (execute [("a", c5CurHcc)] [("a", c5DesHcc)]).current "a"
      = some { c5CurHcc with configFiles := c5DesHcc.configFiles } :=
  C5_file_drift_writes_only [("a", c5CurHcc)] [("a", c5DesHcc)] "a" c5CurHcc c5DesHcc
    (by decide) (by decide) (by decide) (by decide) (by decide) (by decide) (by decide)
    (by decide) (by decide)
